import Mathlib

/-!
The package miracl/conform: a verification development

A shallow embedding of the Go package `conform` (conform.go, key.go, logic.go,
operation.go, predicate.go, updater.go) and theorems about it.

* Go edits the document in place.  Here every operation takes the document
  and returns the document it leaves behind together with its `error` result
  (`Doc × Option Err`); code that may also panic returns an `Outcome`.
* A document is a finite tree of mappings, sequences and scalars, as
  `encoding/json` decodes it.  Two places of a document never share a value,
  so an edit at one path is seen at the paths that run through it and nowhere
  else.
* Go itself keeps a mapping as a reference to a map and a sequence as a slice
  of an array, `Copy` stores the map or slice it read at a second place, and
  a `range` runs over a map while the loop body edits it.  Where a statement
  depends on that (what `Move` leaves, what `Walk` does on a mapping), it is
  made on a second model, `Conform.InPlace`, of values that refer into a
  memory of maps and arrays.
* The libraries the package calls are not part of it.  The pointer primitive
  is modelled on the document tree; the schema engine, the JSON codec and the
  template engine are parameters (`Schema`, `Codec`, `Template`).
-/

namespace Conform

/-! ## Data model -/

/-- Errors returned by the package.  Go uses plain `error` values; the
constructor records which component produced the error. -/
inductive Err where
  | path (msg : String)
  | type (msg : String)
  | walk (msg : String)
  | template (msg : String)
  | validation (msg : String)
  | other (msg : String)
  deriving DecidableEq, Repr

/-- Whether an error comes from the pointer primitive (`jsonPtr`, `Get`,
`Set`, `Delete`). -/
def Err.isPath : Err → Bool
  | .path _ => true
  | _ => false

/-- Whether an error is the one `WalkKey` raises itself. -/
def Err.isWalk : Err → Bool
  | .walk _ => true
  | _ => false

/-- Whether an error is the type error of `GetKeyAsString`. -/
def Err.isType : Err → Bool
  | .type _ => true
  | _ => false

/-- The document: the `interface{}` trees that `encoding/json` decodes into
(`map[string]interface{}`, `[]interface{}`, string, number, bool, nil).
A mapping is an association list; its list order stands for the order in
which a Go `range` happens to visit the keys. -/
inductive Doc where
  | null
  | bool (b : Bool)
  | num (n : Int)
  | str (s : String)
  | arr (items : List Doc)
  | obj (fields : List (String × Doc))
  deriving Repr, Inhabited

/-- The entries of a mapping. -/
abbrev Fields := List (String × Doc)

/-- Go `v[k]` with the `ok` flag: the value stored under `k`, if any. -/
def Fields.find (k : String) : Fields → Option Doc
  | [] => none
  | (k1, v) :: rest => if k1 = k then some v else Fields.find k rest

/-- Go `v[k] = x`: overwrite the entry for `k`, or add one. -/
def Fields.put (k : String) (x : Doc) : Fields → Fields
  | [] => [(k, x)]
  | (k1, v) :: rest => if k1 = k then (k1, x) :: rest else (k1, v) :: Fields.put k x rest

/-- Go `delete(v, k)`: afterwards `k` is not a key of the mapping. -/
def Fields.drop (k : String) : Fields → Fields
  | [] => []
  | (k1, v) :: rest => if k1 = k then Fields.drop k rest else (k1, v) :: Fields.drop k rest

/-- The keys of a mapping, in visiting order. -/
def Fields.keys (m : Fields) : List String := m.map Prod.fst

/-- What running a piece of code on the document gives: it returns, leaving
the document `data` and the Go `error` result `err` (`none` is `nil`), or it
panics. -/
inductive Outcome where
  | done (data : Doc) (err : Option Err)
  | panic
  deriving Repr

/-- Lift an operation that cannot panic. -/
def Outcome.ret (r : Doc × Option Err) : Outcome := .done r.1 r.2

/-! ## The pointer primitive (github.com/xeipuuv/gojsonpointer) -/

/-- Split a list of characters at every occurrence of `sep`
(Go `strings.Split` with a one-character separator). -/
def splitAt (sep : Char) : List Char → List (List Char)
  | [] => [[]]
  | c :: cs =>
    if c = sep then [] :: splitAt sep cs
    else match splitAt sep cs with
      | [] => [[c]]
      | t :: ts => (c :: t) :: ts

/-- Replace every `~` followed by `code` with `by1`, left to right
(Go `strings.Replace(s, "~"+code, by1, -1)`). -/
def replaceTilde (code by1 : Char) : List Char → List Char
  | [] => []
  | [c] => [c]
  | c :: d :: cs =>
    if c = '~' ∧ d = code then by1 :: replaceTilde code by1 cs
    else c :: replaceTilde code by1 (d :: cs)

/-- Modelled from the spec: the reference-token decoding of the pointer
primitive, which is not under src/ ("`~1`/`~0` escaping for `/` and `~` inside
segment names"): `~1` becomes `/`, then `~0` becomes `~`. -/
def decodeReferenceToken (token : String) : String :=
  String.mk (replaceTilde '0' '~' (replaceTilde '1' '/' token.data))

/-- Value of a run of decimal digits, `none` if some character is not a digit. -/
def digitsValue : List Char → Nat → Option Nat
  | [], acc => some acc
  | c :: cs, acc =>
    if c.isDigit then digitsValue cs (10 * acc + (c.toNat - 48)) else none

/-- Go `strconv.Atoi`: an optional sign, then at least one decimal digit; the
value must fit a 64-bit `int`. -/
def Atoi (s : String) : Option Int :=
  let body (cs : List Char) : Option Nat :=
    match cs with
    | [] => none
    | _ => digitsValue cs 0
  match s.data with
  | '-' :: cs =>
    match body cs with
    | some n => if n ≤ 2 ^ 63 then some (- (n : Int)) else none
    | none => none
  | '+' :: cs =>
    match body cs with
    | some n => if n < 2 ^ 63 then some (n : Int) else none
    | none => none
  | cs =>
    match body cs with
    | some n => if n < 2 ^ 63 then some (n : Int) else none
    | none => none

/-- Modelled from the spec: how the pointer primitive, which is not under
src/, reads a reference token as the index of a sequence of length `len`
("missing intermediate key/index"): `Atoi` must succeed and the index must
lie in `0..len-1`. -/
def arrayIndex (token : String) (len : Nat) : Except Err Nat :=
  match Atoi token with
  | none => .error (.path ("Invalid array index " ++ token))
  | some i =>
    if i < 0 ∨ (len : Int) ≤ i then .error (.path ("Out of bound array index " ++ token))
    else .ok i.toNat

/-- Modelled from the spec: `NewJsonPointer` of the pointer primitive, which
is not under src/.  "Empty string addresses the document root"; any other path
must start with `/` and is split into reference tokens at every `/`. -/
def jsonPtr (key : String) : Except Err (List String) :=
  match key.data with
  | [] => .ok []
  | c :: cs =>
    if c = '/' then .ok ((splitAt '/' cs).map String.mk)
    else .error (.path "JSON pointer must be empty or start with a /")

/-- Modelled from the spec: `JsonPointer.Get` of the pointer primitive, which
is not under src/: the "value at path", failing with a path error when the
path "does not resolve (missing intermediate key/index)".  A mapping is
entered by the decoded token, a sequence by the token read as an index, and
nothing else can be entered. -/
def ptrGet : List String → Doc → Except Err Doc
  | [], d => .ok d
  | t :: ts, .obj m =>
    match Fields.find (decodeReferenceToken t) m with
    | some child => ptrGet ts child
    | none => .error (.path ("Object has no key " ++ decodeReferenceToken t))
  | t :: ts, .arr l =>
    match arrayIndex t l.length with
    | .error e => .error e
    | .ok i => ptrGet ts (l.getD i .null)
  | t :: _, _ => .error (.path ("Invalid token reference " ++ t))

/-- Modelled from the spec: `JsonPointer.Set` of the pointer primitive, which
is not under src/: it "creates or overwrites the value at path".  The
primitive writes one entry: the tokens before the last must resolve, as in
`ptrGet`, and the last token overwrites the entry of a mapping or adds it, or
overwrites an existing element of a sequence.  With no token there is no entry
to write and the document is returned as it is.  A write that fails leaves
the document as it was (`ptrSet_error_same`). -/
def ptrSet : List String → Doc → Doc → Doc × Option Err
  | [], _, d => (d, none)
  | t :: ts, v, .obj m =>
    match Fields.find (decodeReferenceToken t) m with
    | some child =>
      match ts with
      | [] => (.obj (Fields.put (decodeReferenceToken t) v m), none)
      | _ :: _ =>
        let r := ptrSet ts v child
        (.obj (Fields.put (decodeReferenceToken t) r.1 m), r.2)
    | none =>
      match ts with
      | [] => (.obj (Fields.put (decodeReferenceToken t) v m), none)
      | _ :: _ => (.obj m, some (.path ("Object has no key " ++ decodeReferenceToken t)))
  | t :: ts, v, .arr l =>
    match arrayIndex t l.length with
    | .error e => (.arr l, some e)
    | .ok i =>
      match ts with
      | [] => (.arr (l.set i v), none)
      | _ :: _ =>
        let r := ptrSet ts v (l.getD i .null)
        (.arr (l.set i r.1), r.2)
  | t :: _, _, d => (d, some (.path ("Invalid token reference " ++ t)))

/-- Modelled from the spec: `JsonPointer.Delete` of the pointer primitive,
which is not under src/: it "removes the entry at path; fails with `PathError`
if missing".  The path is resolved as in `ptrGet`; the last token removes the
entry of a mapping or the element of a sequence.  With no token there is no
entry to remove and the document is returned as it is. -/
def ptrDelete : List String → Doc → Doc × Option Err
  | [], d => (d, none)
  | t :: ts, .obj m =>
    match Fields.find (decodeReferenceToken t) m with
    | some child =>
      match ts with
      | [] => (.obj (Fields.drop (decodeReferenceToken t) m), none)
      | _ :: _ =>
        let r := ptrDelete ts child
        (.obj (Fields.put (decodeReferenceToken t) r.1 m), r.2)
    | none => (.obj m, some (.path ("Object has no key " ++ decodeReferenceToken t)))
  | t :: ts, .arr l =>
    match arrayIndex t l.length with
    | .error e => (.arr l, some e)
    | .ok i =>
      match ts with
      | [] => (.arr (l.eraseIdx i), none)
      | _ :: _ =>
        let r := ptrDelete ts (l.getD i .null)
        (.arr (l.set i r.1), r.2)
  | t :: _, d => (d, some (.path ("Invalid token reference " ++ t)))

/-! ## Templates (operation.go, `renderTemplate`) -/

/-- The two library calls `renderTemplate` makes, taken as given (`regexp` and
`text/template` are not under src/).
`Rewrite tmpl` is `keyRegex.ReplaceAllString(tmpl, openDelim+"$1"+closeDelim)`;
`Execute key s` parses `s` with the delimiters `openDelim`, `closeDelim` and
executes it with the template function `key`. -/
structure Template where
  Rewrite : String → String
  Execute : (String → Except Err Doc) → String → Except Err String

/-! ## operation.go -/

/-- `GetKey` returns the value of the given key in the given dataset. -/
def GetKey (data : Doc) (key : String) : Except Err Doc :=
  match jsonPtr key with
  | .error err => .error err
  | .ok p => ptrGet p data

/-- `GetKeyAsString`: a failed lookup gives the empty string and no error; a
value that is not a string gives an error. -/
def GetKeyAsString (data : Doc) (key : String) : Except Err String :=
  match GetKey data key with
  | .error _ => .ok ""
  | .ok (.str s) => .ok s
  | .ok _ => .error (.type "Value is not a string")

/-- `renderTemplate` replaces the key placeholders of `tmpl`; a string the
rewriting leaves as it is, is returned without parsing. -/
def renderTemplate (T : Template) (data : Doc) (tmpl : String) : Except Err String :=
  let s := T.Rewrite tmpl
  if s = tmpl then .ok s
  else T.Execute (fun key => GetKey data key) s

/-- `SetKey` sets the value of the given key; a string value is rendered
against the document first. -/
def SetKey (T : Template) (data : Doc) (key : String) (val : Doc) : Doc × Option Err :=
  match jsonPtr key with
  | .error err => (data, some err)
  | .ok p =>
    match val with
    | .str s =>
      match renderTemplate T data s with
      | .error err => (data, some err)
      | .ok s1 => ptrSet p (.str s1) data
    | _ => ptrSet p val data

/-- `DeleteKey` removes the given key from the given dataset. -/
def DeleteKey (data : Doc) (key : String) : Doc × Option Err :=
  match jsonPtr key with
  | .error err => (data, some err)
  | .ok p => ptrDelete p data

/-- `CopyKey` copies the key `src` (Go `from`) to the key `dst` (Go `to`).  On
trees the value written is a tree of its own; Go writes the map or slice it
read, which is then stored at both keys: that is `InPlace.CopyKey`. -/
def CopyKey (T : Template) (data : Doc) (src dst : String) : Doc × Option Err :=
  match GetKey data src with
  | .error err => (data, some err)
  | .ok val => SetKey T data dst val

/-- `MoveKey` moves the key `src` (Go `from`) to the key `dst` (Go `to`): `CopyKey`, and if that
returned no error, `DeleteKey`. -/
def MoveKey (T : Template) (data : Doc) (src dst : String) : Doc × Option Err :=
  match CopyKey T data src dst with
  | (data1, some err) => (data1, some err)
  | (data1, none) => DeleteKey data1 src

/-- `TransformKey` applies `f` to the value of the given key and writes the
result back. -/
def TransformKey (T : Template) (data : Doc) (key : String)
    (f : Doc → Except Err Doc) : Doc × Option Err :=
  match GetKey data key with
  | .error err => (data, some err)
  | .ok val =>
    match f val with
    | .error err => (data, some err)
    | .ok val1 => SetKey T data key val1

/-! ## key.go -/

/-- One step of Go `path.Clean` on the elements of a path, `out` holding the
elements kept so far, last one first: empty and `.` elements are skipped, `..`
removes the last kept element when there is one to remove, is kept in an
unrooted path otherwise, and is skipped at the root. -/
def cleanStep (rooted : Bool) (out : List (List Char)) (e : List Char) : List (List Char) :=
  if e = [] ∨ e = ['.'] then out
  else if e = ['.', '.'] then
    match out with
    | top :: rest => if top = ['.', '.'] then e :: out else rest
    | [] => if rooted then out else [e]
  else e :: out

/-- Join elements with `/`. -/
def joinSlash : List (List Char) → List Char
  | [] => []
  | [e] => e
  | e :: rest => e ++ '/' :: joinSlash rest

/-- Go `path.Clean`. -/
def pathClean (p : List Char) : List Char :=
  match p with
  | [] => ['.']
  | c :: _ =>
    let rooted : Bool := c = '/'
    let out := ((splitAt '/' p).foldl (cleanStep rooted) []).reverse
    if rooted then '/' :: joinSlash out
    else if out = [] then ['.'] else joinSlash out

/-- The buffer Go `path.Join` builds before cleaning: the elements separated
by `/`, leading empty elements left out. -/
def joinBuf : List Char → List String → List Char
  | buf, [] => buf
  | buf, e :: rest =>
    if buf ≠ [] ∨ e ≠ "" then
      joinBuf ((if buf ≠ [] then buf ++ ['/'] else buf) ++ e.data) rest
    else joinBuf buf rest

/-- Go `path.Join`. -/
def pathJoin (elem : List String) : String :=
  if elem.all (fun e => e.data = []) then ""
  else String.mk (pathClean (joinBuf [] elem))

/-- `JoinKey` creates a key from its component parts. -/
def JoinKey (key : List String) : String := pathJoin key

/-! ## updater.go -/

/-- `Updater` defines an operation performed on a given dataset; `none` is the
nil function value. -/
abbrev Updater := Option (Doc → Outcome)

/-- `KeyUpdater` defines an Updater that is based on the given key; `none` is
the nil function value. -/
abbrev KeyUpdater := Option (String → Updater)

/-- `Updater.Do` applies the updater; it returns nil if the updater is nil. -/
def Updater.Do (u : Updater) (data : Doc) : Outcome :=
  match u with
  | some f => f data
  | none => .done data none

/-- `KeyUpdater.Do` returns the updater for the key; nil if the KeyUpdater is nil. -/
def KeyUpdater.Do (u : KeyUpdater) (key : String) : Updater :=
  match u with
  | some f => f key
  | none => none

/-- `Updater.Then` executes `next` if `u` succeeds. -/
def Updater.Then (u next : Updater) : Updater :=
  some (fun data =>
    match Updater.Do u data with
    | .panic => .panic
    | .done data1 (some err) => .done data1 (some err)
    | .done data1 none => Updater.Do next data1)

/-- `Set` sets the value of the given key. -/
def Set (T : Template) (key : String) (val : Doc) : Updater :=
  some (fun data => Outcome.ret (SetKey T data key val))

/-- `Delete` removes the given key. -/
def Delete (key : String) : Updater :=
  some (fun data => Outcome.ret (DeleteKey data key))

/-- `Move` moves the key `src` (Go `from`) to the key `dst` (Go `to`). -/
def Move (T : Template) (src dst : String) : Updater :=
  some (fun data => Outcome.ret (MoveKey T data src dst))

/-- `Copy` copies the key `src` (Go `from`) to the key `dst` (Go `to`). -/
def Copy (T : Template) (src dst : String) : Updater :=
  some (fun data => Outcome.ret (CopyKey T data src dst))

/-! ## operation.go, `WalkKey` -/

/-- A record of the calls `WalkKey` makes: the child key handed to the
KeyUpdater and the document the returned Updater was run on. -/
abbrev Calls := List (String × Doc)

/-- Whether the mapping being ranged over still has the key `k`.  The mapping
is the one stored at `key`, which the loop body edits in place, so its entries
are read back there; once `key` no longer leads to a mapping, the mapping that
was there is out of the document's reach and keeps its entries.  A tree cannot
tell the map that was at `key` from another one stored there since:
`InPlace.walkMap` ranges over the map itself. -/
def stillKey (data : Doc) (key k : String) : Bool :=
  match GetKey data key with
  | .ok (.obj m) => (Fields.find k m).isSome
  | _ => true

/-- The loop `for k := range m { err = f(JoinKey(key, k)).Do(data) ... }` of
`WalkKey`, over the keys `m` had on entry, in visiting order.  The body edits
the document, and with it `m`, in place; Go does not produce a key that was
removed from `m` before the loop reached it, so a key is visited only if the
mapping still has it.  Calling a nil `f` panics.  This follows one run of the
loop, the keys in list order; the other orders, and the runs in which Go
produces an entry created during the loop, are in `InPlace.walkMap`, on which
what `Walk` does on a mapping is stated. -/
def walkMap (f : KeyUpdater) (key : String) : List String → Doc → Calls × Outcome
  | [], data => ([], .done data none)
  | k :: ks, data =>
    if stillKey data key k then
      match f with
      | none => ([], .panic)
      | some fn =>
        match Updater.Do (fn (JoinKey [key, k])) data with
        | .panic => ([(JoinKey [key, k], data)], .panic)
        | .done data1 (some err) => ([(JoinKey [key, k], data)], .done data1 (some err))
        | .done data1 none =>
          let r := walkMap f key ks data1
          ((JoinKey [key, k], data) :: r.1, r.2)
    else walkMap f key ks data

/-- The loop `for i := range s { k := strconv.Itoa(i); ... }` of `WalkKey`:
the indices `0..len(s)-1`, the length being read once, before the loop. -/
def walkSeq (f : KeyUpdater) (key : String) : List Nat → Doc → Calls × Outcome
  | [], data => ([], .done data none)
  | i :: is, data =>
    match f with
    | none => ([], .panic)
    | some fn =>
      match Updater.Do (fn (JoinKey [key, Nat.repr i])) data with
      | .panic => ([(JoinKey [key, Nat.repr i], data)], .panic)
      | .done data1 (some err) => ([(JoinKey [key, Nat.repr i], data)], .done data1 (some err))
      | .done data1 none =>
        let r := walkSeq f key is data1
        ((JoinKey [key, Nat.repr i], data) :: r.1, r.2)

/-- `WalkKey` together with the record of the calls it makes to `f`. -/
def WalkKeyCalls (data : Doc) (key : String) (f : KeyUpdater) : Calls × Outcome :=
  match GetKey data key with
  | .error err => ([], .done data (some err))
  | .ok .null => ([], .done data none)
  | .ok (.obj m) => walkMap f key (Fields.keys m) data
  | .ok (.arr s) => walkSeq f key (List.range s.length) data
  | .ok _ => ([], .done data (some (.walk ("Cannot walk key " ++ key))))

/-- `WalkKey` calls the given KeyUpdater for each child key of the given key.
It does not recurse. -/
def WalkKey (data : Doc) (key : String) (f : KeyUpdater) : Outcome :=
  (WalkKeyCalls data key f).2

/-- `Walk` calls the given KeyUpdater for each child key of the given key. -/
def Walk (key : String) (u : KeyUpdater) : Updater :=
  some (fun data => WalkKey data key u)

/-! ## Values that rendering leaves alone -/

/-- Whether rendering leaves the value as it is: it is not a string, or
a string in which `renderTemplate` finds no placeholder. -/
def plainValue (T : Template) : Doc → Bool
  | .str s => T.Rewrite s = s
  | _ => true

/-- The value `SetKey` writes for `val`: a string is rendered against the
document first, any other value is written as it is. -/
def rendered (T : Template) (data : Doc) : Doc → Except Err Doc
  | .str s =>
    match renderTemplate T data s with
    | .error err => .error err
    | .ok s1 => .ok (.str s1)
  | val => .ok val

/-! ## Child keys -/

/-- The child keys `WalkKey` builds for the keys `ks` of the value at `key`. -/
def childKeys (key : String) (ks : List String) : List String :=
  ks.map (fun k => JoinKey [key, k])

/-! ## conform.go -/

/-- The two calls `deepCopy` makes to `encoding/json`, taken as given. -/
structure Codec where
  Bytes : Type
  Marshal : Doc → Except Err Bytes
  Unmarshal : Bytes → Except Err Doc

/-- The schema engine (`conflate.Schema`), taken as given: `ApplyDefaults`
fills in defaults in the document it is handed and may fail, `Validate`
checks a document and returns the validation error, if any. -/
structure Schema where
  ApplyDefaults : Doc → Doc × Option Err
  Validate : Doc → Option Err

/-- `Conformer` pairs a schema with the updater that migrates data up to it
and an optional link to the next Conformer. -/
inductive Conformer where
  | mk (Schema : Schema) (Updater : Updater) (Next : Option Conformer)

/-- The field `Schema`. -/
def Conformer.Schema : Conformer → Schema
  | .mk s _ _ => s

/-- The field `Updater`. -/
def Conformer.Updater : Conformer → Updater
  | .mk _ u _ => u

/-- The field `Next`. -/
def Conformer.Next : Conformer → Option Conformer
  | .mk _ _ n => n

/-- `deepCopy` marshals `input` and unmarshals the bytes into `out`, which
starts as nil.  When marshalling fails it returns nil, not the error, and
`out` stays nil. -/
def deepCopy (J : Codec) (input : Doc) : Doc × Option Err :=
  match J.Marshal input with
  | .error _ => (.null, none)
  | .ok b =>
    match J.Unmarshal b with
    | .error err => (.null, some err)
    | .ok out => (out, none)

/-- `Conformer.validate` copies the data, applies the defaults to the copy and
validates the copy.  The data itself is only read. -/
def Conformer.validate (J : Codec) (c : Conformer) (data : Doc) : Option Err :=
  match deepCopy J data with
  | (_, some err) => some err
  | (def1, none) =>
    match c.Schema.ApplyDefaults def1 with
    | (_, some err) => some err
    | (def2, none) => c.Schema.Validate def2

/-- `Conformer.Conform` attempts to ensure the given data conforms to
`Schema`. -/
def Conformer.Conform (J : Codec) : Conformer → Doc → Outcome
  | .mk s u next, data =>
    match Conformer.validate J (.mk s u next) data with
    | none => .done data none
    | some err =>
      match next with
      | none => .done data (some err)
      | some n =>
        match Conformer.Conform J n data with
        | .panic => .panic
        | .done data1 (some _) => .done data1 (some err)
        | .done data1 none =>
          match Updater.Do u data1 with
          | .panic => .panic
          | .done data2 (some _) => .done data2 (some err)
          | .done data2 none => .done data2 (Conformer.validate J (.mk s u next) data2)

/-- The validation of `Conformer.validate` for a schema on its own: the
method reads no other field of the Conformer. -/
def Schema.check (J : Codec) (s : Schema) (data : Doc) : Option Err :=
  Conformer.validate J (.mk s none none) data

/-! ## Chains and test fixtures -/

/-- The chain whose first nodes carry the given schemas and updaters, newest
first, and end in the Conformer `last`. -/
def chain : List (Schema × Updater) → Conformer → Conformer
  | [], last => last
  | (s, u) :: rest, last => .mk s u (some (chain rest last))

/-- The document after the updaters of `nodes` have run one after the other,
from the last node of the list to the first, each on the document the one
before it left; `none` unless every one of them returns without error. -/
def replay : List (Schema × Updater) → Doc → Option Doc
  | [], data => some data
  | (_, u) :: rest, data =>
    match replay rest data with
    | none => none
    | some data1 =>
      match Updater.Do u data1 with
      | .done data2 none => some data2
      | _ => none

/-- Whether every node of `nodes` accepts the document its own updater leaves
during `replay`. -/
def revalidates (J : Codec) : List (Schema × Updater) → Doc → Bool
  | [], _ => true
  | (s, u) :: rest, data =>
    revalidates J rest data &&
      (match replay ((s, u) :: rest) data with
       | some data1 =>
         (Schema.check J s data1).isNone
       | none => false)

/-- A codec that loses nothing: the copy `deepCopy` makes is the tree itself. -/
def treeCodec : Codec := ⟨Doc, fun d => .ok d, fun b => .ok b⟩

/-- A template engine for strings that hold no placeholder. -/
def plainTemplate : Template := ⟨fun s => s, fun _ s => .ok s⟩

/-- Whether every entry of a mapping is a string stored under one of the
given property names. -/
def onlyStrings (props : List String) : Fields → Bool
  | [] => true
  | (k, .str _) :: rest => props.contains k && onlyStrings props rest
  | _ :: _ => false

/-- Modelled from the spec: the schema engine is not under src/; this is a
schema of the shape the tests use, `{"type": "object", "properties": {p:
{"type": "string", "default": d}, ...}, "additionalProperties": false}`:
`ApplyDefaults` adds each missing property that has a default, `Validate`
accepts the mappings whose entries are strings under declared names. -/
def stringObjectSchema (title : String) (props : List (String × Option String)) : Schema where
  ApplyDefaults := fun d =>
    match d with
    | .obj m =>
      (.obj (props.foldl (fun acc p =>
        match p.2, Fields.find p.1 acc with
        | some dflt, none => Fields.put p.1 (.str dflt) acc
        | _, _ => acc) m), none)
    | _ => (d, none)
  Validate := fun d =>
    match d with
    | .obj m =>
      if onlyStrings (props.map Prod.fst) m then none
      else some (.validation (title ++ ": the document does not match the schema"))
    | _ => some (.validation (title ++ ": the document is not an object"))

/-- The `schema1` of `TestConform_MoveProperty`. -/
def schema1 : Schema := stringObjectSchema "schema1" [("key1", some "def1")]

/-- The `schema2` of `TestConform_MoveProperty`. -/
def schema2 : Schema := stringObjectSchema "schema2" [("key2", none)]

/-- The chain of `TestConform_MoveProperty`:
head (`schema1`, `Move("/key2", "/key1")`), then tail (`schema2`). -/
def moveChain : Conformer :=
  .mk schema1 (Move plainTemplate "/key2" "/key1") (some (.mk schema2 none none))

/-- The chain of `TestConform_MoveProperty` with an updater that cannot
succeed: `/missing` is not a key of the documents the tail accepts. -/
def stuckChain : Conformer :=
  .mk schema1 (Move plainTemplate "/missing" "/key1") (some (.mk schema2 none none))

/-- The KeyUpdater that writes 0 at the child key it is given. -/
def zeroChild : KeyUpdater :=
  some (fun child => Set plainTemplate child (.num 0))

/-! ## operation.go, regular expressions -/

/-- A compiled regular expression (`*regexp.Regexp`), taken as given: the two
methods the package calls. -/
structure Pattern where
  MatchString : String → Bool
  ReplaceAllString : String → String → String

/-- `RegexKey` performs a regular expression replacement on the value of the
given key; the replacement string is rendered against the document first. -/
def RegexKey (T : Template) (data : Doc) (key : String) (re : Pattern) (repl : String) :
    Doc × Option Err :=
  TransformKey T data key (fun val =>
    match val with
    | .str s =>
      match renderTemplate T data repl with
      | .error err => .error err
      | .ok r => .ok (.str (re.ReplaceAllString s r))
    | _ => .error (.type ("Key is not a string value " ++ key)))

/-- `RegexMatchKey` renders and compiles the pattern `pat` (Go `match`), then
calls `RegexKey`; `compile` is `regexp.Compile`, taken as given. -/
def RegexMatchKey (T : Template) (compile : String → Except Err Pattern) (data : Doc)
    (key pat repl : String) : Doc × Option Err :=
  match renderTemplate T data pat with
  | .error err => (data, some err)
  | .ok m =>
    match compile m with
    | .error err => (data, some err)
    | .ok re => RegexKey T data key re repl

/-- `Regex` performs a regular expression replacement on the value of the key. -/
def Regex (T : Template) (key : String) (re : Pattern) (repl : String) : Updater :=
  some (fun data => Outcome.ret (RegexKey T data key re repl))

/-- `RegexMatch` performs a regular expression replacement on the value of the key. -/
def RegexMatch (T : Template) (compile : String → Except Err Pattern)
    (key pat repl : String) : Updater :=
  some (fun data => Outcome.ret (RegexMatchKey T compile data key pat repl))

/-! ## predicate.go -/

/-- `Predicate` is a logical test on a given dataset; `none` is a panic. -/
abbrev Predicate := Doc → Option Bool

/-- `KeyPredicate` returns a predicate based on a key. -/
abbrev KeyPredicate := String → Predicate

/-- `KeyExists` is true if the key exists in the data. -/
def KeyExists (key : String) : Predicate := fun data =>
  match GetKey data key with
  | .error _ => some false
  | .ok _ => some true

/-- The test `reflect.DeepEqual(val, reflect.Zero(reflect.TypeOf(val)).Interface())`
of `ValEmpty`.  For the nil value `reflect.TypeOf` returns nil and
`reflect.Zero` panics.  The zero value of a map or slice type is nil, which
`DeepEqual` tells from every decoded mapping or sequence, empty ones
included. -/
def isZeroValue : Doc → Option Bool
  | .null => none
  | .bool b => some (b = false)
  | .num n => some (n = 0)
  | .str s => some (s = "")
  | .arr _ => some false
  | .obj _ => some false

/-- `ValEmpty` is true if the key holds an empty value: nil, the zero value
for the type, or a map or slice of length zero.  The four tests are all
computed before the result is. -/
def ValEmpty (key : String) : Predicate := fun data =>
  match GetKey data key with
  | .error _ => some false
  | .ok val =>
    let isNil : Bool := match val with
      | .null => true
      | _ => false
    match isZeroValue val with
    | none => none
    | some isZero =>
      let isEmptyMap : Bool := match val with
        | .obj m => m.length = 0
        | _ => false
      let isEmptySlice : Bool := match val with
        | .arr s => s.length = 0
        | _ => false
      some (isNil || isZero || isEmptyMap || isEmptySlice)

/-- `ValRegex` is true if the value of the key matches the regular
expression. -/
def ValRegex (key : String) (re : Pattern) : Predicate := fun data =>
  match GetKeyAsString data key with
  | .error _ => some false
  | .ok s => some (re.MatchString s)

/-- `Not` is the negation of the given predicate. -/
def Not (pred : Predicate) : Predicate := fun data =>
  match pred data with
  | none => none
  | some b => some (!b)

/-! ## logic.go -/

/-- `If` executes one of the given updaters, based on the result of a
predicate. -/
def If (pred : Predicate) (t f : Updater) : Updater :=
  some (fun data =>
    match pred data with
    | none => .panic
    | some true => Updater.Do t data
    | some false => Updater.Do f data)

/-- `IfKey` executes one of the given KeyUpdaters, based on the result of a
predicate. -/
def IfKey (key : String) (pred : KeyPredicate) (t f : KeyUpdater) : Updater :=
  some (fun data =>
    match pred key data with
    | none => .panic
    | some true => Updater.Do (KeyUpdater.Do t key) data
    | some false => Updater.Do (KeyUpdater.Do f key) data)

/-- `Compose` executes the given updaters in turn: starting from the nil
updater, each one is chained with `Then`. -/
def Compose (us : List Updater) : Updater :=
  us.foldl Updater.Then none

/-- The behaviour the specification gives for `Compose`: run the updaters in
order on the document, stop at the first one that does not return nil. -/
def runInOrder : List Updater → Doc → Outcome
  | [], data => .done data none
  | u :: rest, data =>
    match Updater.Do u data with
    | .done data1 none => runInOrder rest data1
    | other => other

/-- Whether the schema of every node of the chain rejects the document. -/
def rejectedByAll (J : Codec) : Conformer → Doc → Bool
  | .mk s _ next, data =>
    (Schema.check J s data).isSome &&
      (match next with
       | none => true
       | some n => rejectedByAll J n data)

/-- Whether the value is a string, a number or a boolean. -/
def isScalar : Doc → Bool
  | .str _ => true
  | .num _ => true
  | .bool _ => true
  | _ => false

/-- The child keys `WalkKey` builds for the indices `0..n-1` of the sequence
at `key`: `JoinKey(key, strconv.Itoa(i))`. -/
def indexKeys (key : String) (n : Nat) : List String :=
  (List.range n).map (fun i => JoinKey [key, Nat.repr i])

/-- The pattern `^$`: it matches the empty string only, and replacing in a
string that is not empty changes nothing (replacement strings without `$`). -/
def emptyPattern : Pattern where
  MatchString := fun s => s = ""
  ReplaceAllString := fun s r => if s = "" then r else s

/-- Replace every `$1` of a replacement string by the text of the first
group. -/
def expandGroup1 (g : List Char) : List Char → List Char
  | [] => []
  | [c] => [c]
  | c :: d :: rest =>
    if c = '$' ∧ d = '1' then g ++ expandGroup1 g rest
    else c :: expandGroup1 g (d :: rest)

/-- The last character of a text without line breaks, when it is a digit. -/
def digitTail (s : List Char) : Option Char :=
  if s.all (fun c => c ≠ '\n') then
    match s.getLast? with
    | some c => if c.isDigit then some c else none
    | none => none
  else none

/-- The pattern `^.*(\d+)$` of `TestConform_ModifyArrayItems`: it matches a
text without line breaks that ends in a digit; `.*` being greedy, the group is
that last digit, and the whole text is replaced (replacement strings in which
`$` occurs only in `$1`). -/
def digitTailPattern : Pattern where
  MatchString := fun s => (digitTail s.data).isSome
  ReplaceAllString := fun s r =>
    match digitTail s.data with
    | some c => String.mk (expandGroup1 [c] r.data)
    | none => s

/-- The `regexp.Compile` of the fixtures: it knows the pattern of
`TestConform_ModifyArrayItems` and no other. -/
def testCompile (m : String) : Except Err Pattern :=
  if m = "^.*(\\d+)$" then .ok digitTailPattern
  else .error (.other ("no fixture for the pattern " ++ m))

/-- The KeyUpdater of `TestConform_ModifyArrayItems`:
`Move(JoinKey(key, "key2"), JoinKey(key, "key1")).Then(
RegexMatch(JoinKey(key, "/key1"), "^.*(\d+)$", "val$1"))`. -/
def renameItem : String → Updater := fun key =>
  Updater.Then (Move plainTemplate (JoinKey [key, "key2"]) (JoinKey [key, "key1"]))
    (RegexMatch plainTemplate testCompile (JoinKey [key, "/key1"]) "^.*(\\d+)$" "val$1")

/-- The data of `TestConform_ModifyArrayItems`. -/
def arrayData : Doc :=
  .obj [("array1", .arr [.obj [("key2", .str "value1")], .obj [("key2", .str "value2")]])]

/-! ## The template engine (Go `regexp` and `text/template`) -/

/-- The characters the regular expression class `\s` matches. -/
def isReSpace (c : Char) : Bool :=
  c = ' ' ∨ c = '\t' ∨ c = '\n' ∨ c = '\x0c' ∨ c = '\r'

/-- The shortest text without a line break that is followed by `}}`
(the `.*?}}` of `keyRegex`), if there is one. -/
def upToClose : List Char → Option (List Char)
  | [] => none
  | [_] => none
  | c :: d :: rest =>
    if c = '}' ∧ d = '}' then some []
    else if c = '\n' then none
    else
      match upToClose (d :: rest) with
      | some body => some (c :: body)
      | none => none

/-- The first group of `keyRegex`, `{{(\s*key\s.*?)}}`, when the expression
matches at a `{{` that is followed by `cs`. -/
def keyGroup (cs : List Char) : Option (List Char) :=
  match cs.dropWhile isReSpace with
  | 'k' :: 'e' :: 'y' :: c :: rest =>
    if isReSpace c then
      match upToClose rest with
      | some body => some (cs.takeWhile isReSpace ++ 'k' :: 'e' :: 'y' :: c :: body)
      | none => none
    else none
  | _ => none

/-- Modelled from the spec: `keyRegex.ReplaceAllString(tmpl, openDelim + "$1" +
closeDelim)`, the regexp library not being under src/: it "rewrites recognized
placeholders into an internal delimiter form".  The text is scanned from the
left; where `keyRegex` matches, the match `{{g}}` becomes `{{<<g>>}}` and the
scan goes on behind it (`skip` counts the characters of a match still to be
passed over). -/
def rewriteKeys : Nat → List Char → List Char
  | _, [] => []
  | skip + 1, _ :: cs => rewriteKeys skip cs
  | 0, c :: cs =>
    match (match c, cs with
           | '{', '{' :: rest => keyGroup rest
           | _, _ => none) with
    | some g => "\x7b\x7b<<".data ++ g ++ ">>\x7d\x7d".data ++ rewriteKeys (g.length + 3) cs
    | none => c :: rewriteKeys 0 cs

/-- A parsed template: literal text and `key "<path>"` actions. -/
inductive Piece where
  | text (t : List Char)
  | key (path : String)

/-- The characters of a quoted path up to the closing quote, and what follows
it; a backslash or a line break ends the model. -/
def quotedPath : List Char → Option (List Char × List Char)
  | [] => none
  | c :: rest =>
    if c = '"' then some ([], rest)
    else if c = '\\' ∨ c = '\n' then none
    else
      match quotedPath rest with
      | some (p, after) => some (c :: p, after)
      | none => none

/-- An action `key "<path>"` and the number of characters it takes, the
closing delimiter included, when `cs` is what follows an opening delimiter. -/
def keyAction (cs : List Char) : Option (String × Nat) :=
  match cs.dropWhile isReSpace with
  | 'k' :: 'e' :: 'y' :: c :: rest =>
    if isReSpace c then
      match (c :: rest).dropWhile isReSpace with
      | '"' :: q =>
        match quotedPath q with
        | some (p, after) =>
          match after.dropWhile isReSpace with
          | '>' :: '>' :: '}' :: '}' :: tail => some (String.mk p, cs.length - tail.length)
          | _ => none
        | none => none
      | _ => none
    else none
  | _ => none

/-- Modelled from the spec: `Parse` of the template library, which is not
under src/, with the delimiters `{{<<` and `>>}}`, for the templates the spec
describes: literal text and placeholders `key "<path>"`.  An action of any
other form is reported as a template error ("the resulting template is
syntactically invalid").  `txt` is the literal text read so far, last
character first; `skip` counts the characters of an action still to be passed
over. -/
def parsePieces : Nat → List Char → List Char → Except Err (List Piece)
  | _, [], txt => .ok (if txt = [] then [] else [.text txt.reverse])
  | skip + 1, _ :: cs, txt => parsePieces skip cs txt
  | 0, c :: cs, txt =>
    match c, cs with
    | '{', '{' :: '<' :: '<' :: rest =>
      match keyAction rest with
      | none => .error (.template "template: unexpected action")
      | some (path, len) =>
        match parsePieces (len + 3) cs [] with
        | .error err => .error err
        | .ok ps => .ok ((if txt = [] then [] else [.text txt.reverse]) ++ .key path :: ps)
    | _, _ => parsePieces 0 cs (c :: txt)

/-- Insert an entry in a list of entries ordered by key. -/
def insertByKey (e : String × List Char) : List (String × List Char) → List (String × List Char)
  | [] => [e]
  | f :: rest => if e.1 < f.1 then e :: f :: rest else f :: insertByKey e rest

/-- Join printed values with blanks. -/
def joinBlank : List (List Char) → List Char
  | [] => []
  | [t] => t
  | t :: rest => t ++ ' ' :: joinBlank rest

mutual
/-- Modelled from the spec: "the string form of the looked-up value", as Go
`fmt` prints a value inside a container: a string as it is, `true`/`false`,
`<nil>`, a sequence as `[v1 v2]`, a mapping as `map[k1:v1 k2:v2]` with the
keys in order; a number is an integer, printed in decimal. -/
def printDoc : Doc → List Char
  | .null => "<nil>".data
  | .bool b => if b then "true".data else "false".data
  | .num n => (toString n).data
  | .str s => s.data
  | .arr l => '[' :: joinBlank (printItems l) ++ [']']
  | .obj m =>
    "map[".data ++
      joinBlank (((printFields m).foldr insertByKey []).map (fun e => e.1.data ++ ':' :: e.2))
      ++ [']']
/-- The printed items of a sequence. -/
def printItems : List Doc → List (List Char)
  | [] => []
  | d :: rest => printDoc d :: printItems rest
/-- The printed entries of a mapping. -/
def printFields : List (String × Doc) → List (String × List Char)
  | [] => []
  | (k, d) :: rest => (k, printDoc d) :: printFields rest
end

/-- The text a template action prints for a value: a nil value prints as
`<no value>`, any other value as `fmt` prints it. -/
def stringForm : Doc → List Char
  | .null => "<no value>".data
  | d => printDoc d

/-- Modelled from the spec: `Execute` of the template library, which is not
under src/: it evaluates the template "against a key-lookup function bound to
the live document, substituting each placeholder with the string form of the
looked-up value", and "fails if a referenced path cannot be resolved". -/
def execPieces (key : String → Except Err Doc) : List Piece → Except Err (List Char)
  | [] => .ok []
  | .text t :: rest =>
    match execPieces key rest with
    | .error err => .error err
    | .ok out => .ok (t ++ out)
  | .key path :: rest =>
    match key path with
    | .error _ => .error (.template ("template: error calling key: " ++ path))
    | .ok val =>
      match execPieces key rest with
      | .error err => .error err
      | .ok out => .ok (stringForm val ++ out)

/-- Modelled from the spec: the template engine `renderTemplate` calls, for
templates made of literal text and `key "<path>"` placeholders. -/
def goTemplate : Template where
  Rewrite := fun tmpl => String.mk (rewriteKeys 0 tmpl.data)
  Execute := fun key s =>
    match parsePieces 0 s.data [] with
    | .error err => .error err
    | .ok ps =>
      match execPieces key ps with
      | .error err => .error err
      | .ok out => .ok (String.mk out)

/-- The value `TestConform_SetProperty`-style edits write:
`{{key "/a"}}{{key "/b"}}`. -/
def concatAB : String := "\x7b\x7bkey \"/a\"\x7d\x7d\x7b\x7bkey \"/b\"\x7d\x7d"

/-! ## Plain keys and clean paths -/

/-- Whether the key is one plain path segment: not empty, without `/`, and
neither `.` nor `..`. -/
def plainSegment (k : String) : Bool :=
  k.data ≠ [] ∧ k.data.all (fun c => c ≠ '/') ∧ k.data ≠ ['.'] ∧ k.data ≠ ['.', '.']

/-- Whether the key is its own reference token: it holds no `/`, and decoding
`~0` and `~1` leaves it as it is, so that the pointer `/k` addresses the
entry `k` of a mapping. -/
def ownToken (k : String) : Bool :=
  k.data.all (fun c => c ≠ '/') ∧ decodeReferenceToken k = k

/-- Whether the path is a pointer below the root in the form `path.Clean`
leaves alone: it starts with `/`, is not `/` alone, and has no empty, `.` or
`..` segment. -/
def cleanPath (p : String) : Bool :=
  match p.data with
  | '/' :: _ :: _ => pathClean p.data = p.data
  | _ => false

/-- The KeyUpdater that returns the nil updater for every key. -/
def noEdit : String → Updater := fun _ => none

/-! ## The in-place model: documents in memory

Go keeps a mapping as a reference to a map and a sequence as a slice (a
reference to an array, and a length), and every edit changes the map or the
array in place.  A document may hold the same map or array at several places,
as `Copy` leaves it.  This model keeps the references: a value is a scalar or
a reference into a memory of maps and arrays.  It is used where a claim
depends on what is shared, or on what an edit does to a map while it is being
ranged over. -/

namespace InPlace

/-- A Go value in a document: a scalar, a reference to a map in memory, or a
slice, the address of its array and its length. -/
inductive Val where
  | null
  | bool (b : Bool)
  | num (n : Int)
  | str (s : String)
  | map (a : Nat)
  | slice (a : Nat) (len : Nat)
  deriving DecidableEq, Repr, Inhabited

/-- The entries of a map. -/
abbrev Entries := List (String × Val)

/-- Go `v[k]` with the `ok` flag. -/
def Entries.find (k : String) : Entries → Option Val
  | [] => none
  | (k1, v) :: rest => if k1 = k then some v else Entries.find k rest

/-- Go `v[k] = x`. -/
def Entries.put (k : String) (x : Val) : Entries → Entries
  | [] => [(k, x)]
  | (k1, v) :: rest => if k1 = k then (k1, x) :: rest else (k1, v) :: Entries.put k x rest

/-- Go `delete(v, k)`. -/
def Entries.drop (k : String) : Entries → Entries
  | [] => []
  | (k1, v) :: rest => if k1 = k then Entries.drop k rest else (k1, v) :: Entries.drop k rest

/-- The keys of a map, each once. -/
def Entries.keys (m : Entries) : List String := (m.map Prod.fst).dedup

/-- The memory: the map and the array at every address.  An address that is
not in use holds the empty map and an array of nil cells. -/
structure Mem where
  maps : Nat → Entries
  arrays : Nat → Nat → Val

/-- The memory with the map at `a` replaced. -/
def Mem.putMap (h : Mem) (a : Nat) (m : Entries) : Mem :=
  ⟨fun x => if x = a then m else h.maps x, h.arrays⟩

/-- The memory with cell `i` of the array at `a` replaced. -/
def Mem.putCell (h : Mem) (a i : Nat) (v : Val) : Mem :=
  ⟨h.maps, fun x j => if x = a ∧ j = i then v else h.arrays x j⟩

/-- An entry of a map created or removed; overwriting an entry is neither. -/
inductive MapOp where
  | created (a : Nat) (k : String)
  | removed (a : Nat) (k : String)
  deriving DecidableEq, Repr

/-- What running a piece of code gives: it returns, leaving the memory `mem`
and the Go `error` result `err` (`none` is `nil`), having created and removed
the map entries `ops`, in this order; or it panics.  The entries are recorded
where they are created and removed, in `ptrSet` and `ptrDelete`; what a
`range` over a map produces depends on them (`afterOps`). -/
inductive Outcome where
  | done (mem : Mem) (err : Option Err) (ops : List MapOp)
  | panic

/-- The memory an outcome leaves; `h` after a panic. -/
def Outcome.memOr (h : Mem) : Outcome → Mem
  | .done mem _ _ => mem
  | .panic => h

/-- Whether the code returned, and returned no error. -/
def Outcome.succeeded : Outcome → Bool
  | .done _ none _ => true
  | _ => false

/-- The map entries the code created and removed. -/
def Outcome.ops : Outcome → List MapOp
  | .done _ _ ops => ops
  | .panic => []

/-- Modelled from the spec: `JsonPointer.Get` of the pointer primitive, which
is not under src/, on values in memory: the "value at path", failing with a
path error when the path "does not resolve (missing intermediate
key/index)".  A map is entered by the decoded token, a slice by the token
read as an index below its length. -/
def ptrGet : List String → Mem → Val → Except Err Val
  | [], _, v => .ok v
  | t :: ts, h, .map a =>
    match Entries.find (decodeReferenceToken t) (h.maps a) with
    | some child => ptrGet ts h child
    | none => .error (.path ("Object has no key " ++ decodeReferenceToken t))
  | t :: ts, h, .slice a n =>
    match arrayIndex t n with
    | .error e => .error e
    | .ok i => ptrGet ts h (h.arrays a i)
  | t :: _, _, _ => .error (.path ("Invalid token reference " ++ t))

/-- Modelled from the spec: `JsonPointer.Set` of the pointer primitive, which
is not under src/, on values in memory: it "creates or overwrites the value at
path".  The tokens before the last must resolve, as in `ptrGet`; the last one
overwrites or adds an entry of the map reached, or overwrites a cell of the
array reached, in place.  With no token nothing is written. -/
def ptrSet : List String → Val → Mem → Val → Outcome
  | [], _, h, _ => .done h none []
  | t :: ts, v, h, .map a =>
    match Entries.find (decodeReferenceToken t) (h.maps a) with
    | some child =>
      match ts with
      | [] => .done (h.putMap a (Entries.put (decodeReferenceToken t) v (h.maps a))) none []
      | _ :: _ => ptrSet ts v h child
    | none =>
      match ts with
      | [] =>
        .done (h.putMap a (Entries.put (decodeReferenceToken t) v (h.maps a))) none
          [.created a (decodeReferenceToken t)]
      | _ :: _ => .done h (some (.path ("Object has no key " ++ decodeReferenceToken t))) []
  | t :: ts, v, h, .slice a n =>
    match arrayIndex t n with
    | .error e => .done h (some e) []
    | .ok i =>
      match ts with
      | [] => .done (h.putCell a i v) none []
      | _ :: _ => ptrSet ts v h (h.arrays a i)
  | t :: _, _, h, _ => .done h (some (.path ("Invalid token reference " ++ t))) []

/-- Modelled from the spec: `JsonPointer.Delete` of the pointer primitive,
which is not under src/, on values in memory: it "removes the entry at path;
fails with `PathError` if missing".  An entry is removed from its map in
place.  A cell is removed from its array by moving the last cell of the slice
into its place; the shorter slice is then stored in the map the slice was read
from, under the token that led to it (`prev`), and the primitive panics when
the slice was not read from a map.  With no token nothing is removed. -/
def ptrDelete : List String → Option (Val × String) → Mem → Val → Outcome
  | [], _, h, _ => .done h none []
  | t :: ts, _, h, .map a =>
    match Entries.find (decodeReferenceToken t) (h.maps a) with
    | some child =>
      match ts with
      | [] =>
        .done (h.putMap a (Entries.drop (decodeReferenceToken t) (h.maps a))) none
          [.removed a (decodeReferenceToken t)]
      | _ :: _ => ptrDelete ts (some (.map a, t)) h child
    | none => .done h (some (.path ("Object has no key " ++ decodeReferenceToken t))) []
  | t :: ts, prev, h, .slice a n =>
    match arrayIndex t n with
    | .error e => .done h (some e) []
    | .ok i =>
      match ts with
      | [] =>
        match prev with
        | some (.map pa, tok) =>
          .done ((((h.putCell a i (h.arrays a (n - 1))).putCell a (n - 1) .null)).putMap pa
              (Entries.put tok (.slice a (n - 1)) (h.maps pa))) none
            (if (Entries.find tok (h.maps pa)).isSome then [] else [.created pa tok])
        | _ => .panic
      | _ :: _ => ptrDelete ts (some (.slice a n, t)) h (h.arrays a i)
  | t :: _, _, h, _ => .done h (some (.path ("Invalid token reference " ++ t))) []

/-- The two library calls `renderTemplate` makes, taken as given (`regexp` and
`text/template` are not under src/).  `Execute key h s` parses `s` and
executes it with the template function `key`; it reads the memory `h` to print
the values `key` returns. -/
structure Template where
  Rewrite : String → String
  Execute : (String → Except Err Val) → Mem → String → Except Err String

/-- `GetKey` returns the value of the given key in the given dataset. -/
def GetKey (h : Mem) (data : Val) (key : String) : Except Err Val :=
  match jsonPtr key with
  | .error err => .error err
  | .ok p => ptrGet p h data

/-- `renderTemplate` replaces the key placeholders of `tmpl`; a string the
rewriting leaves as it is, is returned without parsing. -/
def renderTemplate (T : Template) (h : Mem) (data : Val) (tmpl : String) :
    Except Err String :=
  let s := T.Rewrite tmpl
  if s = tmpl then .ok s
  else T.Execute (fun key => GetKey h data key) h s

/-- `SetKey` sets the value of the given key; a string value is rendered
against the document first. -/
def SetKey (T : Template) (h : Mem) (data : Val) (key : String) (val : Val) : Outcome :=
  match jsonPtr key with
  | .error err => .done h (some err) []
  | .ok p =>
    match val with
    | .str s =>
      match renderTemplate T h data s with
      | .error err => .done h (some err) []
      | .ok s1 => ptrSet p (.str s1) h data
    | _ => ptrSet p val h data

/-- `DeleteKey` removes the given key from the given dataset. -/
def DeleteKey (h : Mem) (data : Val) (key : String) : Outcome :=
  match jsonPtr key with
  | .error err => .done h (some err) []
  | .ok p => ptrDelete p none h data

/-- `CopyKey` copies the key `src` (Go `from`) to the key `dst` (Go `to`): the
value read is the value written, a map or a slice as the reference it is. -/
def CopyKey (T : Template) (h : Mem) (data : Val) (src dst : String) : Outcome :=
  match GetKey h data src with
  | .error err => .done h (some err) []
  | .ok val => SetKey T h data dst val

/-- `MoveKey` moves the key `src` (Go `from`) to the key `dst` (Go `to`):
`CopyKey`, and if that returned no error, `DeleteKey`. -/
def MoveKey (T : Template) (h : Mem) (data : Val) (src dst : String) : Outcome :=
  match CopyKey T h data src dst with
  | .panic => .panic
  | .done h1 (some err) ops => .done h1 (some err) ops
  | .done h1 none ops =>
    match DeleteKey h1 data src with
    | .panic => .panic
    | .done h2 err ops2 => .done h2 err (ops ++ ops2)

/-- `Updater` defines an operation performed on a given dataset; `none` is the
nil function value. -/
abbrev Updater := Option (Mem → Val → Outcome)

/-- `KeyUpdater` defines an Updater that is based on the given key; `none` is
the nil function value. -/
abbrev KeyUpdater := Option (String → Updater)

/-- `Updater.Do` applies the updater; it returns nil if the updater is nil. -/
def Updater.Do (u : Updater) (h : Mem) (data : Val) : Outcome :=
  match u with
  | some f => f h data
  | none => .done h none []

/-- `Updater.Then` executes `next` if `u` succeeds. -/
def Updater.Then (u next : Updater) : Updater :=
  some (fun h data =>
    match Updater.Do u h data with
    | .panic => .panic
    | .done h1 (some err) ops => .done h1 (some err) ops
    | .done h1 none ops =>
      match Updater.Do next h1 data with
      | .panic => .panic
      | .done h2 err ops2 => .done h2 err (ops ++ ops2))

/-- `Set` sets the value of the given key. -/
def Set (T : Template) (key : String) (val : Val) : Updater :=
  some (fun h data => SetKey T h data key val)

/-- `Delete` removes the given key. -/
def Delete (key : String) : Updater :=
  some (fun h data => DeleteKey h data key)

/-- `Move` moves the key `src` (Go `from`) to the key `dst` (Go `to`). -/
def Move (T : Template) (src dst : String) : Updater :=
  some (fun h data => MoveKey T h data src dst)

/-- `Copy` copies the key `src` (Go `from`) to the key `dst` (Go `to`). -/
def Copy (T : Template) (src dst : String) : Updater :=
  some (fun h data => CopyKey T h data src dst)

/-! ### Places -/

/-- A place of the memory: an entry of a map or a cell of an array. -/
inductive Cell where
  | entry (a : Nat) (k : String)
  | item (a : Nat) (i : Nat)
  deriving DecidableEq, Repr

/-- What a place holds; an entry the map does not have holds nothing. -/
def readCell (h : Mem) : Cell → Option Val
  | .entry a k => Entries.find k (h.maps a)
  | .item a i => some (h.arrays a i)

/-- The place a reference token addresses in a value: an entry of the map, or
a cell of the slice. -/
def cellOf (t : String) : Val → Option Cell
  | .map a => some (.entry a (decodeReferenceToken t))
  | .slice a n =>
    match arrayIndex t n with
    | .ok i => some (.item a i)
    | .error _ => none
  | _ => none

/-- The places `ptrGet` reads to resolve the tokens, in order, up to the one
where it stops. -/
def readCells : List String → Mem → Val → List Cell
  | [], _, _ => []
  | t :: ts, h, v =>
    match cellOf t v with
    | none => []
    | some c =>
      c :: (match readCell h c with
        | some child => readCells ts h child
        | none => [])

/-- The places passed on the way: those read to resolve the tokens before the
last. -/
def wayCells : List String → Mem → Val → List Cell
  | [], _, _ => []
  | [_], _, _ => []
  | t :: t2 :: ts, h, v =>
    match cellOf t v with
    | none => []
    | some c =>
      c :: (match readCell h c with
        | some child => wayCells (t2 :: ts) h child
        | none => [])

/-- The place the tokens address: the place of the last token in the value the
tokens before it resolve to.  The place need not hold anything. -/
def cellAt : List String → Mem → Val → Option Cell
  | [], _, _ => none
  | [t], _, v => cellOf t v
  | t :: t2 :: ts, h, v =>
    match cellOf t v with
    | none => none
    | some c =>
      match readCell h c with
      | some child => cellAt (t2 :: ts) h child
      | none => none

/-- The place a key addresses in the document. -/
def placeOf (h : Mem) (data : Val) (key : String) : Option Cell :=
  match jsonPtr key with
  | .ok p => cellAt p h data
  | .error _ => none

/-- The places passed on the way to the place a key addresses. -/
def wayOf (h : Mem) (data : Val) (key : String) : List Cell :=
  match jsonPtr key with
  | .ok p => wayCells p h data
  | .error _ => []

/-- Whether rendering leaves the value as it is: it is not a string, or a
string in which `renderTemplate` finds no placeholder. -/
def plainValue (T : Template) : Val → Bool
  | .str s => T.Rewrite s = s
  | _ => true

/-- Two memories hold the same at every place outside `S`. -/
def agreeOff (S : List Cell) (h h1 : Mem) : Prop :=
  ∀ c, c ∉ S → readCell h1 c = readCell h c

/-! ### `WalkKey` in place -/

/-- One run of the loop body of `WalkKey`: the child key handed to the
KeyUpdater, the memory the returned Updater was run on, and what it gave. -/
structure Call where
  key : String
  mem : Mem
  out : Outcome

/-- The loop body of `WalkKey` for the key `k`: `f(JoinKey(key, k)).Do(data)`.
Calling a nil `f` panics. -/
def callOn (f : KeyUpdater) (key k : String) (h : Mem) (data : Val) : Outcome :=
  match f with
  | none => .panic
  | some fn => Updater.Do (fn (JoinKey [key, k])) h data

/-- The map an operation was done on. -/
def MapOp.addr : MapOp → Nat
  | .created a _ => a
  | .removed a _ => a

/-- What the operations `ops` of a loop body change for a `range` over the
map at `a`.  The state is the keys the range has yet to produce (`todo`: the
entries the map had when the loop began, less those produced or removed) and
the keys it may yet produce or skip (`extra`: the entries created since the
loop began, less those produced or removed).  A removed entry leaves both; a
created entry joins `extra`. -/
def afterOps (a : Nat) : List MapOp → List String × List String → List String × List String
  | [], s => s
  | .removed a2 k :: ops, s =>
    afterOps a ops (if a2 = a then (s.1.erase k, s.2.erase k) else s)
  | .created a2 k :: ops, s =>
    afterOps a ops (if a2 = a ∧ k ∉ s.1 ∧ k ∉ s.2 then (s.1, k :: s.2) else s)

/-- The outcome with the operations `ops` done before it. -/
def Outcome.after (ops : List MapOp) : Outcome → Outcome
  | .done h err ops2 => .done h err (ops ++ ops2)
  | .panic => .panic

/-- The loop `for k := range m { err = f(JoinKey(key, k)).Do(data); if err !=
nil { return err } }` of `WalkKey`, over the map `m` at the address `a`, which
the loop body may edit in place.  Go fixes neither the order in which a range
produces the entries of a map nor whether it produces an entry created during
the loop; an entry removed before it is reached is not produced.  `order` is
the order in which this run produces keys: each must be a key yet to be
produced (`todo`) or one created during the loop (`extra`), and the loop ends
only when `todo` is empty.  The result is `none` when the range cannot produce
the keys in this order. -/
def walkMap (f : KeyUpdater) (data : Val) (key : String) (a : Nat) :
    List String → Mem → List String → List String → Option (List Call × Outcome)
  | [], h, todo, _ => if todo = [] then some ([], .done h none []) else none
  | k :: order, h, todo, extra =>
    if k ∈ todo ∨ k ∈ extra then
      match callOn f key k h data with
      | .panic => some ([⟨JoinKey [key, k], h, .panic⟩], .panic)
      | .done h1 (some err) ops =>
        some ([⟨JoinKey [key, k], h, .done h1 (some err) ops⟩], .done h1 (some err) ops)
      | .done h1 none ops =>
        match walkMap f data key a order h1 (afterOps a ops (todo.erase k, extra.erase k)).1
            (afterOps a ops (todo.erase k, extra.erase k)).2 with
        | none => none
        | some r => some (⟨JoinKey [key, k], h, .done h1 none ops⟩ :: r.1, r.2.after ops)
    else none

/-- The loop `for i := range s { k := strconv.Itoa(i); ... }` of `WalkKey`:
the indices below the length of the slice, in order. -/
def walkSeq (f : KeyUpdater) (data : Val) (key : String) :
    List Nat → Mem → List Call × Outcome
  | [], h => ([], .done h none [])
  | i :: is, h =>
    match callOn f key (Nat.repr i) h data with
    | .panic => ([⟨JoinKey [key, Nat.repr i], h, .panic⟩], .panic)
    | .done h1 (some err) ops =>
      ([⟨JoinKey [key, Nat.repr i], h, .done h1 (some err) ops⟩], .done h1 (some err) ops)
    | .done h1 none ops =>
      let r := walkSeq f data key is h1
      (⟨JoinKey [key, Nat.repr i], h, .done h1 none ops⟩ :: r.1, r.2.after ops)

/-- `WalkKey` calls the given KeyUpdater for each child key of the given key.
It does not recurse.  The result is the calls made and the outcome, for the
run in which a range over a map produces the keys in the given `order`;
`none` when there is no such run. -/
def WalkKeyCalls (order : List String) (h : Mem) (data : Val) (key : String)
    (f : KeyUpdater) : Option (List Call × Outcome) :=
  match GetKey h data key with
  | .error err => some ([], .done h (some err) [])
  | .ok .null => some ([], .done h none [])
  | .ok (.map a) => walkMap f data key a order h (Entries.keys (h.maps a)) []
  | .ok (.slice _ n) => some (walkSeq f data key (List.range n) h)
  | .ok _ => some ([], .done h (some (.walk ("Cannot walk key " ++ key))) [])

/-- Whether each call was run on the memory the call before it left, the
first one on `h`. -/
def linked : Mem → List Call → Prop
  | _, [] => True
  | h, c :: rest => c.mem = h ∧ linked (c.out.memOr h) rest

/-- Whether two outcomes are the same return: the same memory and the same
`error` result, or both a panic. -/
def Outcome.sameReturn : Outcome → Outcome → Prop
  | .done h1 e1 _, .done h2 e2 _ => h1 = h2 ∧ e1 = e2
  | .panic, .panic => True
  | _, _ => False

/-! ### Fixtures in memory -/

/-- The memory with nothing in it. -/
def Mem.empty : Mem := ⟨fun _ => [], fun _ _ => .null⟩

/-- The tree below a value, followed `depth` levels down; what lies deeper is
left out. -/
def view (h : Mem) : Nat → Val → Doc
  | _, .null => .null
  | _, .bool b => .bool b
  | _, .num n => .num n
  | _, .str s => .str s
  | 0, .map _ => .obj []
  | 0, .slice _ _ => .arr []
  | d + 1, .map a => .obj ((h.maps a).map (fun e => (e.1, view h d e.2)))
  | d + 1, .slice a n => .arr ((List.range n).map (fun i => view h d (h.arrays a i)))

/-- A template engine for strings that hold no placeholder. -/
def plainTemplate : Template := ⟨fun s => s, fun _ _ s => .ok s⟩

/-- Modelled from the spec: the template engine `renderTemplate` calls
(`Conform.goTemplate`), on values in memory: a value `key` returns is printed
as the tree below it, followed `depth` levels down. -/
def goTemplate (depth : Nat) : Template where
  Rewrite := Conform.goTemplate.Rewrite
  Execute := fun key h s =>
    Conform.goTemplate.Execute
      (fun k =>
        match key k with
        | .error err => .error err
        | .ok v => .ok (view h depth v)) s

/-- The document `{"key2": "val2"}` of `TestConform_MoveProperty`, the root
map at address 0. -/
def key2Doc : Mem := Mem.empty.putMap 0 [("key2", .str "val2")]

/-- The document `{"a": {"k": 1}, "c": {}}`: the root map at address 0, the
map at `/a` at address 1, the map at `/c` at address 2. -/
def nestedDoc : Mem :=
  ((Mem.empty.putMap 0 [("a", .map 1), ("c", .map 2)]).putMap 1 [("k", .num 1)]).putMap 2 []

/-- The document `{"m": {"a": 1, "b": 2}}`: the root map at address 0, the map
at `/m` at address 1. -/
def twoEntries : Mem :=
  (Mem.empty.putMap 0 [("m", .map 1)]).putMap 1 [("a", .num 1), ("b", .num 2)]

/-- The document `{"m": {"a": 1}}`. -/
def oneEntry : Mem :=
  (Mem.empty.putMap 0 [("m", .map 1)]).putMap 1 [("a", .num 1)]

/-- The KeyUpdater that, whatever child key it is given, removes the entries
`a` and `b` of the mapping at `/m`: `Delete("/m/a").Then(Delete("/m/b"))`. -/
def clearBoth : String → Updater :=
  fun _ => Updater.Then (Delete "/m/a") (Delete "/m/b")

/-- The KeyUpdater that, whatever child key it is given, writes the entry `zz`
of the mapping at `/m`: `Set("/m/zz", 0)`. -/
def addEntry : String → Updater :=
  fun _ => Set plainTemplate "/m/zz" (.num 0)

/-- The KeyUpdater that writes 0 at the child key it is given. -/
def zeroChild : String → Updater :=
  fun child => Set plainTemplate child (.num 0)

/-- The KeyUpdater that, whatever child key it is given, stores another map,
the empty one at address 2, at `/m`: `Set("/m", map[string]interface{}{})`. -/
def replaceMapping : String → Updater :=
  fun _ => Set plainTemplate "/m" (.map 2)

/-- The document `{"a": {}}`: the root map at address 0, the map at `/a` at
address 1. -/
def emptyAtA : Mem := (Mem.empty.putMap 0 [("a", .map 1)]).putMap 1 []

/-- The document `{"arr": [1, 2]}`: the root map at address 0, the array at
address 1. -/
def arrDoc : Mem :=
  ((Mem.empty.putMap 0 [("arr", .slice 1 2)]).putCell 1 0 (.num 1)).putCell 1 1 (.num 2)

/-- The document `{"a": "{{key "/c"}}", "c": "x"}`: the value at `/a` is the
placeholder for the value at `/c`. -/
def placeholderDoc : Mem :=
  Mem.empty.putMap 0 [("a", .str "\x7b\x7bkey \"/c\"\x7d\x7d"), ("c", .str "x")]

/-- The document `{"a": {"b": {"b": 1}}}`: the maps at addresses 0, 1, 2. -/
def deepDoc : Mem :=
  ((Mem.empty.putMap 0 [("a", .map 1)]).putMap 1 [("b", .map 2)]).putMap 2 [("b", .num 1)]

/-- The keys and results of the calls of a run, and whether the run
succeeded. -/
def summary (r : Option (List Call × Outcome)) : Option (List (String × Bool) × Bool) :=
  r.map (fun x => (x.1.map (fun c => (c.key, c.out.succeeded)), x.2.succeeded))

/-- The memory `Copy(src, dst)` leaves. -/
def afterCopy (h : Mem) (src dst : String) : Mem :=
  (CopyKey plainTemplate h (.map 0) src dst).memOr h

/-- The memory `Move(src, dst)` leaves, with the engine `goTemplate`. -/
def afterMove (h : Mem) (src dst : String) : Mem :=
  (MoveKey (goTemplate 8) h (.map 0) src dst).memOr h

/-- The document `Copy("/x", "/y")` leaves from `{"x": {"k": 1}}`: the same
map is at `/x` and at `/y`. -/
def sharedDoc : Mem :=
  afterCopy ((Mem.empty.putMap 0 [("x", .map 1)]).putMap 1 [("k", .num 1)]) "/x" "/y"

/-- The document `Copy("/a", "/c")` leaves from `{"a": {}}`: the same map is
at `/a` and at `/c`. -/
def twinDoc : Mem := afterCopy emptyAtA "/a" "/c"

/-- The document `Copy("", "/x")` leaves from `{"a": 1}`: the root map holds
itself at `/x`. -/
def selfDoc : Mem := afterCopy (Mem.empty.putMap 0 [("a", .num 1)]) "" "/x"

/-- The document `Copy("", "/a/z")` leaves from `{"a": {}}`: the map at `/a`
holds the root map at `z`. -/
def loopDoc : Mem := afterCopy emptyAtA "" "/a/z"

end InPlace

/-! ## Theorems -/

/-! ### The Conformer chain -/

theorem validate_eq_check (J : Codec) (c : Conformer) (data : Doc) :
    c.validate J data = c.Schema.check J data := by
  cases c
  rfl

theorem conform_of_valid (J : Codec) (c : Conformer) (data : Doc)
    (h : c.validate J data = none) : c.Conform J data = .done data none := by
  cases c with
  | mk s u next =>
    unfold Conformer.Conform
    rw [h]

theorem conform_done_none (J : Codec) (c : Conformer) (data data1 : Doc)
    (h : c.Conform J data = .done data1 none) : c.validate J data1 = none := by
  cases c with
  | mk s u next =>
    unfold Conformer.Conform at h
    cases hv : Conformer.validate J (.mk s u next) data with
    | none =>
      rw [hv] at h
      simp only [Outcome.done.injEq, and_true] at h
      rw [← h]
      exact hv
    | some err =>
      rw [hv] at h
      cases next with
      | none => simp at h
      | some n =>
        simp only at h
        cases hn : Conformer.Conform J n data with
        | panic => rw [hn] at h; simp at h
        | done d1 e1 =>
          rw [hn] at h
          cases e1 with
          | some e => simp at h
          | none =>
            simp only at h
            cases hu : Updater.Do u d1 with
            | panic => rw [hu] at h; simp at h
            | done d2 e2 =>
              rw [hu] at h
              cases e2 with
              | some e => simp at h
              | none =>
                simp only [Outcome.done.injEq] at h
                obtain ⟨h1, h2⟩ := h
                rw [← h1]
                exact h2

theorem conform_eq (J : Codec) (s : Schema) (u : Updater) (next : Option Conformer)
    (data : Doc) :
    (Conformer.mk s u next).Conform J data =
      match Conformer.validate J (.mk s u next) data with
      | none => .done data none
      | some err =>
        match next with
        | none => .done data (some err)
        | some n =>
          match Conformer.Conform J n data with
          | .panic => .panic
          | .done data1 (some _) => .done data1 (some err)
          | .done data1 none =>
            match Updater.Do u data1 with
            | .panic => .panic
            | .done data2 (some _) => .done data2 (some err)
            | .done data2 none =>
              .done data2 (Conformer.validate J (.mk s u next) data2) := by
  rw [Conformer.Conform]

theorem conform_chain_inner (J : Codec) (last : Conformer) (D : Doc)
    (hlast : last.validate J D = none) :
    ∀ (nodes : List (Schema × Updater)) (D0 : Doc),
      (∀ p ∈ nodes, Schema.check J p.1 D ≠ none) →
      replay nodes D = some D0 →
      revalidates J nodes D = true →
      (chain nodes last).Conform J D = .done D0 none := by
  intro nodes
  induction nodes with
  | nil =>
    intro D0 _ hrep _
    simp only [replay, Option.some.injEq] at hrep
    rw [← hrep]
    exact conform_of_valid J last D hlast
  | cons p rest ih =>
    obtain ⟨s, u⟩ := p
    intro D0 hfail hrep hrev
    have hs : Schema.check J s D ≠ none := hfail (s, u) (List.mem_cons_self _ _)
    have hrest : ∀ q ∈ rest, Schema.check J q.1 D ≠ none :=
      fun q hq => hfail q (List.mem_cons_of_mem _ hq)
    simp only [revalidates, Bool.and_eq_true] at hrev
    obtain ⟨hrev1, hrev2⟩ := hrev
    rw [hrep] at hrev2
    simp only [Option.isNone_iff_eq_none] at hrev2
    simp only [replay] at hrep
    cases h1 : replay rest D with
    | none => rw [h1] at hrep; simp at hrep
    | some D1 =>
      rw [h1] at hrep
      simp only at hrep
      have hin := ih D1 hrest h1 hrev1
      cases hu : Updater.Do u D1 with
      | panic => rw [hu] at hrep; simp at hrep
      | done d2 e2 =>
        rw [hu] at hrep
        cases e2 with
        | some e => simp at hrep
        | none =>
          simp only [Option.some.injEq] at hrep
          subst hrep
          simp only [chain]
          rw [conform_eq, validate_eq_check]
          simp only [Conformer.Schema]
          cases hv : Schema.check J s D with
          | none => exact absurd hv hs
          | some err =>
            simp only
            rw [hin]
            simp only
            rw [hu]
            simp only
            rw [validate_eq_check]
            simp only [Conformer.Schema]
            rw [hrev2]

/-! ### The pointer primitive -/

theorem find_put_same (k : String) (x : Doc) (m : Fields) :
    Fields.find k (Fields.put k x m) = some x := by
  induction m with
  | nil => simp [Fields.put, Fields.find]
  | cons p rest ih =>
    obtain ⟨k1, v⟩ := p
    by_cases h : k1 = k
    · simp [Fields.put, Fields.find, h]
    · simp [Fields.put, Fields.find, h, ih]

theorem find_put_other (k k1 : String) (x : Doc) (m : Fields) (h : k ≠ k1) :
    Fields.find k1 (Fields.put k x m) = Fields.find k1 m := by
  induction m with
  | nil => simp [Fields.put, Fields.find, h]
  | cons p rest ih =>
    obtain ⟨k2, v⟩ := p
    by_cases h2 : k2 = k
    · subst h2
      simp [Fields.put, Fields.find, h]
    · by_cases h3 : k2 = k1
      · subst h3
        simp [Fields.put, Fields.find, h2]
      · simp [Fields.put, Fields.find, h2, h3, ih]

theorem find_drop_same (k : String) (m : Fields) :
    Fields.find k (Fields.drop k m) = none := by
  induction m with
  | nil => simp [Fields.drop, Fields.find]
  | cons p rest ih =>
    obtain ⟨k1, v⟩ := p
    by_cases h : k1 = k
    · simp [Fields.drop, h, ih]
    · simp [Fields.drop, Fields.find, h, ih]

theorem find_drop_other (k k1 : String) (m : Fields) (h : k ≠ k1) :
    Fields.find k1 (Fields.drop k m) = Fields.find k1 m := by
  induction m with
  | nil => simp [Fields.drop, Fields.find]
  | cons p rest ih =>
    obtain ⟨k2, v⟩ := p
    by_cases h2 : k2 = k
    · subst h2
      simp [Fields.drop, Fields.find, h, ih]
    · by_cases h3 : k2 = k1
      · subst h3
        simp [Fields.drop, Fields.find, h2]
      · simp [Fields.drop, Fields.find, h2, h3, ih]

theorem put_find_self (k : String) (c : Doc) (m : Fields) (h : Fields.find k m = some c) :
    Fields.put k c m = m := by
  induction m with
  | nil => simp [Fields.find] at h
  | cons p rest ih =>
    obtain ⟨k1, v⟩ := p
    by_cases h1 : k1 = k
    · simp [Fields.find, h1] at h
      simp [Fields.put, h1, h]
    · simp [Fields.find, h1] at h
      simp [Fields.put, h1, ih h]

theorem arrayIndex_lt (t : String) (n i : Nat) (h : arrayIndex t n = .ok i) : i < n := by
  unfold arrayIndex at h
  split at h
  · simp at h
  · next j hj =>
    split at h
    · simp at h
    · next hcond =>
      simp only [Except.ok.injEq] at h
      omega

theorem arrayIndex_isPath (t : String) (n : Nat) (e : Err) (h : arrayIndex t n = .error e) :
    e.isPath = true := by
  unfold arrayIndex at h
  split at h
  · simp only [Except.error.injEq] at h
    subst h
    rfl
  · split at h
    · simp only [Except.error.injEq] at h
      subst h
      rfl
    · simp at h

theorem set_getD_self (l : List Doc) (i : Nat) (h : i < l.length) :
    l.set i (l.getD i .null) = l := by
  apply List.ext_getElem
  · simp
  · intro n h1 h2
    by_cases hn : i = n
    · subst hn
      simp [List.getD_eq_getElem?_getD, List.getElem?_eq_getElem h]
    · simp [List.getElem_set_ne hn]

theorem getD_set_same (l : List Doc) (i : Nat) (x : Doc) (h : i < l.length) :
    (l.set i x).getD i .null = x := by
  simp [List.getD_eq_getElem?_getD, List.getElem?_set_self, h]

theorem getD_set_other (l : List Doc) (i j : Nat) (x : Doc) (h : i ≠ j) :
    (l.set i x).getD j .null = l.getD j .null := by
  simp [List.getD_eq_getElem?_getD, List.getElem?_set_ne h]


theorem ptrGet_isPath : ∀ (p : List String) (d : Doc) (e : Err),
    ptrGet p d = .error e → e.isPath = true := by
  intro p
  induction p with
  | nil => intro d e h; simp [ptrGet] at h
  | cons t ts ih =>
    intro d e h
    cases d with
    | obj m =>
      simp only [ptrGet] at h
      split at h
      · exact ih _ _ h
      · simp only [Except.error.injEq] at h
        subst h
        rfl
    | arr l =>
      simp only [ptrGet] at h
      split at h
      · next e1 he =>
        simp only [Except.error.injEq] at h
        subst h
        exact arrayIndex_isPath _ _ _ he
      · exact ih _ _ h
    | null => simp only [ptrGet, Except.error.injEq] at h; subst h; rfl
    | bool b => simp only [ptrGet, Except.error.injEq] at h; subst h; rfl
    | num n => simp only [ptrGet, Except.error.injEq] at h; subst h; rfl
    | str s => simp only [ptrGet, Except.error.injEq] at h; subst h; rfl

theorem ptrSet_error_same : ∀ (p : List String) (v d : Doc) (e : Err),
    (ptrSet p v d).2 = some e → (ptrSet p v d).1 = d := by
  intro p
  induction p with
  | nil => intro v d e h; simp [ptrSet] at h
  | cons t ts ih =>
    intro v d e h
    cases d with
    | obj m =>
      simp only [ptrSet] at h ⊢
      cases hf : Fields.find (decodeReferenceToken t) m with
      | some child =>
        rw [hf] at h
        cases ts with
        | nil => simp at h
        | cons t1 ts1 =>
          simp only at h ⊢
          rw [ih v child e h, put_find_self _ _ _ hf]
      | none =>
        rw [hf] at h
        cases ts with
        | nil => simp at h
        | cons t1 ts1 => rfl
    | arr l =>
      simp only [ptrSet] at h ⊢
      cases hi : arrayIndex t l.length with
      | error e1 => rfl
      | ok i =>
        rw [hi] at h
        cases ts with
        | nil => simp at h
        | cons t1 ts1 =>
          simp only at h ⊢
          rw [ih v _ e h, set_getD_self _ _ (arrayIndex_lt _ _ _ hi)]
    | null => rfl
    | bool b => rfl
    | num n => rfl
    | str s => rfl

theorem ptrDelete_error : ∀ (p : List String) (d : Doc) (e : Err),
    (ptrDelete p d).2 = some e → (ptrDelete p d).1 = d ∧ ptrGet p d = .error e := by
  intro p
  induction p with
  | nil => intro d e h; simp [ptrDelete] at h
  | cons t ts ih =>
    intro d e h
    cases d with
    | obj m =>
      simp only [ptrDelete, ptrGet] at h ⊢
      cases hf : Fields.find (decodeReferenceToken t) m with
      | some child =>
        rw [hf] at h
        cases ts with
        | nil => simp at h
        | cons t1 ts1 =>
          simp only at h ⊢
          obtain ⟨h1, h2⟩ := ih child e h
          rw [h1, put_find_self _ _ _ hf]
          exact ⟨rfl, h2⟩
      | none =>
        rw [hf] at h
        simp only [Option.some.injEq] at h
        subst h
        exact ⟨rfl, rfl⟩
    | arr l =>
      simp only [ptrDelete, ptrGet] at h ⊢
      cases hi : arrayIndex t l.length with
      | error e1 =>
        rw [hi] at h
        simp only [Option.some.injEq] at h
        subst h
        exact ⟨rfl, rfl⟩
      | ok i =>
        rw [hi] at h
        cases ts with
        | nil => simp at h
        | cons t1 ts1 =>
          simp only at h ⊢
          obtain ⟨h1, h2⟩ := ih _ e h
          rw [h1, set_getD_self _ _ (arrayIndex_lt _ _ _ hi)]
          exact ⟨rfl, h2⟩
    | null => simp only [ptrDelete, Option.some.injEq] at h; subst h; exact ⟨rfl, rfl⟩
    | bool b => simp only [ptrDelete, Option.some.injEq] at h; subst h; exact ⟨rfl, rfl⟩
    | num n => simp only [ptrDelete, Option.some.injEq] at h; subst h; exact ⟨rfl, rfl⟩
    | str s => simp only [ptrDelete, Option.some.injEq] at h; subst h; exact ⟨rfl, rfl⟩

theorem ptrGet_after_set : ∀ (p : List String) (w d d1 : Doc),
    p ≠ [] → ptrSet p w d = (d1, none) → ptrGet p d1 = .ok w := by
  intro p
  induction p with
  | nil => intro w d d1 hp; exact absurd rfl hp
  | cons t ts ih =>
    intro w d d1 _ h
    cases d with
    | obj m =>
      simp only [ptrSet] at h
      cases hf : Fields.find (decodeReferenceToken t) m with
      | some child =>
        rw [hf] at h
        cases ts with
        | nil =>
          simp only [Prod.mk.injEq, and_true] at h
          subst h
          simp [ptrGet, find_put_same]
        | cons t1 ts1 =>
          simp only [Prod.mk.injEq] at h
          obtain ⟨h1, h2⟩ := h
          subst h1
          simp only [ptrGet, find_put_same]
          apply ih w child _ (by simp)
          exact Prod.ext rfl h2
      | none =>
        rw [hf] at h
        cases ts with
        | nil =>
          simp only [Prod.mk.injEq, and_true] at h
          subst h
          simp [ptrGet, find_put_same]
        | cons t1 ts1 => simp at h
    | arr l =>
      simp only [ptrSet] at h
      cases hi : arrayIndex t l.length with
      | error e1 => rw [hi] at h; simp at h
      | ok i =>
        rw [hi] at h
        have hlt := arrayIndex_lt _ _ _ hi
        cases ts with
        | nil =>
          simp only [Prod.mk.injEq, and_true] at h
          subst h
          simp only [ptrGet, List.length_set, hi, getD_set_same _ _ _ hlt]
        | cons t1 ts1 =>
          simp only [Prod.mk.injEq] at h
          obtain ⟨h1, h2⟩ := h
          subst h1
          simp only [ptrGet, List.length_set, hi, getD_set_same _ _ _ hlt]
          apply ih w _ _ (by simp)
          exact Prod.ext rfl h2
    | null => simp [ptrSet] at h
    | bool b => simp [ptrSet] at h
    | num n => simp [ptrSet] at h
    | str s => simp [ptrSet] at h



theorem setKey_eq (T : Template) (data : Doc) (key : String) (val : Doc) (p : List String)
    (hp : jsonPtr key = .ok p) :
    SetKey T data key val =
      match rendered T data val with
      | .error err => (data, some err)
      | .ok w => ptrSet p w data := by
  unfold SetKey rendered
  rw [hp]
  cases val with
  | str s =>
    simp only
    cases renderTemplate T data s <;> rfl
  | null => rfl
  | bool b => rfl
  | num n => rfl
  | arr l => rfl
  | obj m => rfl

theorem rendered_plain (T : Template) (data val : Doc) (h : plainValue T val = true) :
    rendered T data val = .ok val := by
  cases val with
  | str s =>
    simp only [plainValue, decide_eq_true_eq] at h
    simp only [rendered, renderTemplate, h, if_true]
  | null => rfl
  | bool b => rfl
  | num n => rfl
  | arr l => rfl
  | obj m => rfl

theorem setKey_error_same (T : Template) (data : Doc) (key : String) (val d1 : Doc) (e : Err)
    (h : SetKey T data key val = (d1, some e)) : d1 = data := by
  cases hp : jsonPtr key with
  | error err =>
    simp only [SetKey, hp, Prod.mk.injEq] at h
    exact h.1.symm
  | ok p =>
    rw [setKey_eq T data key val p hp] at h
    cases hr : rendered T data val with
    | error err =>
      rw [hr] at h
      simp only [Prod.mk.injEq] at h
      exact h.1.symm
    | ok w =>
      rw [hr] at h
      simp only at h
      have h2 : (ptrSet p w data).2 = some e := by rw [h]
      have h3 := ptrSet_error_same p w data e h2
      rw [h] at h3
      exact h3

/-! ### The in-place model -/

namespace InPlace

theorem entries_find_put_same (k : String) (x : Val) (m : Entries) :
    Entries.find k (Entries.put k x m) = some x := by
  induction m with
  | nil => simp [Entries.put, Entries.find]
  | cons p rest ih =>
    obtain ⟨k1, v⟩ := p
    by_cases hk : k1 = k
    · simp [Entries.put, Entries.find, hk]
    · simp [Entries.put, Entries.find, hk, ih]

theorem entries_find_put_other (k k2 : String) (x : Val) (m : Entries) (hne : k2 ≠ k) :
    Entries.find k2 (Entries.put k x m) = Entries.find k2 m := by
  induction m with
  | nil =>
    have : ¬ k = k2 := fun e => hne e.symm
    simp [Entries.put, Entries.find, this]
  | cons p rest ih =>
    obtain ⟨k1, v⟩ := p
    by_cases hk : k1 = k
    · have : ¬ k1 = k2 := fun e => hne (e.symm.trans hk)
      have h2 : ¬ k = k2 := fun e => hne e.symm
      simp [Entries.put, Entries.find, hk, h2]
    · by_cases hk2 : k1 = k2
      · subst hk2
        simp [Entries.put, Entries.find, hne]
      · simp [Entries.put, Entries.find, hk, hk2, ih]

theorem entries_find_drop_same (k : String) (m : Entries) :
    Entries.find k (Entries.drop k m) = none := by
  induction m with
  | nil => simp [Entries.drop, Entries.find]
  | cons p rest ih =>
    obtain ⟨k1, v⟩ := p
    by_cases hk : k1 = k
    · simp [Entries.drop, hk, ih]
    · simp [Entries.drop, Entries.find, hk, ih]

theorem entries_find_drop_other (k k2 : String) (m : Entries) (hne : k2 ≠ k) :
    Entries.find k2 (Entries.drop k m) = Entries.find k2 m := by
  induction m with
  | nil => simp [Entries.drop, Entries.find]
  | cons p rest ih =>
    obtain ⟨k1, v⟩ := p
    by_cases hk : k1 = k
    · have : ¬ k1 = k2 := fun e => hne (e.symm.trans hk)
      have h2 : ¬ k = k2 := fun e => hne e.symm
      simp [Entries.drop, Entries.find, hk, h2, ih]
    · by_cases hk2 : k1 = k2
      · subst hk2
        simp [Entries.drop, Entries.find, hne]
      · simp [Entries.drop, Entries.find, hk, hk2, ih]


theorem agreeOff_putMap_put (h : Mem) (a : Nat) (k : String) (x : Val) :
    agreeOff [.entry a k] h (h.putMap a (Entries.put k x (h.maps a))) := by
  intro c hc
  cases c with
  | entry a2 k2 =>
    simp only [readCell, Mem.putMap]
    by_cases ha : a2 = a
    · subst ha
      have hk : k2 ≠ k := fun e => hc (by simp [e])
      simp [entries_find_put_other k k2 x _ hk]
    · simp [ha]
  | item a2 i => rfl

theorem agreeOff_putMap_drop (h : Mem) (a : Nat) (k : String) :
    agreeOff [.entry a k] h (h.putMap a (Entries.drop k (h.maps a))) := by
  intro c hc
  cases c with
  | entry a2 k2 =>
    simp only [readCell, Mem.putMap]
    by_cases ha : a2 = a
    · subst ha
      have hk : k2 ≠ k := fun e => hc (by simp [e])
      simp [entries_find_drop_other k k2 _ hk]
    · simp [ha]
  | item a2 i => rfl

theorem agreeOff_putCell (h : Mem) (a i : Nat) (x : Val) :
    agreeOff [.item a i] h (h.putCell a i x) := by
  intro c hc
  cases c with
  | entry a2 k2 => rfl
  | item a2 j =>
    simp only [readCell, Mem.putCell]
    have : ¬ (a2 = a ∧ j = i) := fun e => hc (by simp [e.1, e.2])
    simp [this]

theorem ptrGet_error_isPath (q : List String) (h : Mem) (v : Val) (e : Err)
    (he : ptrGet q h v = .error e) : e.isPath = true := by
  induction q generalizing v with
  | nil => simp [ptrGet] at he
  | cons t ts ih =>
    cases v with
    | map a =>
      simp only [ptrGet] at he
      split at he
      · exact ih _ he
      · cases he; rfl
    | slice a n =>
      simp only [ptrGet] at he
      split at he
      · rename_i e1 h1
        cases he
        exact arrayIndex_isPath _ _ _ h1
      · exact ih _ he
    | null => simp only [ptrGet] at he; cases he; rfl
    | bool b => simp only [ptrGet] at he; cases he; rfl
    | num b => simp only [ptrGet] at he; cases he; rfl
    | str b => simp only [ptrGet] at he; cases he; rfl

/-- One step of `ptrGet`: the place of the first token is read and the rest
is resolved in what it holds. -/
theorem ptrGet_cons_some (t : String) (ts : List String) (h : Mem) (v : Val) (c : Cell)
    (child : Val) (hc : cellOf t v = some c) (hr : readCell h c = some child) :
    ptrGet (t :: ts) h v = ptrGet ts h child := by
  cases v with
  | map a =>
    simp only [cellOf, Option.some.injEq] at hc
    subst hc
    simp only [readCell] at hr
    simp only [ptrGet, hr]
  | slice a n =>
    simp only [cellOf] at hc
    split at hc
    · rename_i i hi
      simp only [Option.some.injEq] at hc
      subst hc
      simp only [readCell, Option.some.injEq] at hr
      simp only [ptrGet, hi, hr]
    · cases hc
  | null => cases hc
  | bool b => cases hc
  | num b => cases hc
  | str b => cases hc

theorem ptrGet_cons_none (t : String) (ts : List String) (h : Mem) (v : Val) (c : Cell)
    (hc : cellOf t v = some c) (hr : readCell h c = none) :
    ∃ e, ptrGet (t :: ts) h v = .error e ∧ e.isPath = true := by
  cases v with
  | map a =>
    simp only [cellOf, Option.some.injEq] at hc
    subst hc
    simp only [readCell] at hr
    exact ⟨.path ("Object has no key " ++ decodeReferenceToken t), by simp only [ptrGet, hr], rfl⟩
  | slice a n =>
    simp only [cellOf] at hc
    split at hc
    · simp only [Option.some.injEq] at hc
      subst hc
      simp [readCell] at hr
    · cases hc
  | null => cases hc
  | bool b => cases hc
  | num b => cases hc
  | str b => cases hc

theorem ptrGet_cons_off (t : String) (ts : List String) (h : Mem) (v : Val)
    (hc : cellOf t v = none) :
    ∃ e, ptrGet (t :: ts) h v = .error e ∧ e.isPath = true := by
  cases hg : ptrGet (t :: ts) h v with
  | error e => exact ⟨e, rfl, ptrGet_error_isPath _ _ _ _ hg⟩
  | ok x =>
    exfalso
    cases v with
    | map a => simp [cellOf] at hc
    | slice a n =>
      simp only [cellOf] at hc
      split at hc
      · cases hc
      · rename_i e1 h1
        simp [ptrGet, h1] at hg
    | null => simp [ptrGet] at hg
    | bool b => simp [ptrGet] at hg
    | num b => simp [ptrGet] at hg
    | str b => simp [ptrGet] at hg

/-- Reading is not affected by a change at places it does not read. -/
theorem ptrGet_frame (S : List Cell) (h h1 : Mem) (hag : agreeOff S h h1) (q : List String)
    (v : Val) (hq : ∀ c ∈ readCells q h v, c ∉ S) :
    ptrGet q h1 v = ptrGet q h v ∧ readCells q h1 v = readCells q h v := by
  induction q generalizing v with
  | nil => exact ⟨rfl, rfl⟩
  | cons t ts ih =>
    cases hc : cellOf t v with
    | none =>
      have e1 : readCells (t :: ts) h1 v = readCells (t :: ts) h v := by
        simp only [readCells, hc]
      refine ⟨?_, e1⟩
      cases v with
      | map a => simp [cellOf] at hc
      | slice a n =>
        simp only [cellOf] at hc
        split at hc
        · cases hc
        · rename_i e2 h2
          simp only [ptrGet, h2]
      | null => rfl
      | bool b => rfl
      | num b => rfl
      | str b => rfl
    | some c =>
      have hcS : c ∉ S := hq c (by simp [readCells, hc])
      have hrc := hag c hcS
      cases hr : readCell h c with
      | none =>
        rw [hr] at hrc
        refine ⟨?_, by simp only [readCells, hc, hr, hrc]⟩
        cases v with
        | map a =>
          simp only [cellOf, Option.some.injEq] at hc
          subst hc
          simp only [readCell] at hr hrc
          simp only [ptrGet, hr, hrc]
        | slice a n =>
          simp only [cellOf] at hc
          split at hc
          · simp only [Option.some.injEq] at hc
            subst hc
            simp [readCell] at hr
          · cases hc
        | null => cases hc
        | bool b => cases hc
        | num b => cases hc
        | str b => cases hc
      | some child =>
        rw [hr] at hrc
        have hsub : ∀ c2 ∈ readCells ts h child, c2 ∉ S := by
          intro c2 hc2
          exact hq c2 (by simp [readCells, hc, hr, hc2])
        obtain ⟨g1, g2⟩ := ih child hsub
        refine ⟨?_, ?_⟩
        · rw [ptrGet_cons_some t ts h1 v c child hc hrc, ptrGet_cons_some t ts h v c child hc hr]
          exact g1
        · simp only [readCells, hc, hr, hrc, g2]

/-- The way to a place and the place are not affected by a change at places
off the way. -/
theorem cellAt_frame (S : List Cell) (h h1 : Mem) (hag : agreeOff S h h1) (q : List String)
    (v : Val) (hq : ∀ c ∈ wayCells q h v, c ∉ S) :
    cellAt q h1 v = cellAt q h v ∧ wayCells q h1 v = wayCells q h v := by
  induction q generalizing v with
  | nil => exact ⟨rfl, rfl⟩
  | cons t ts ih =>
    cases ts with
    | nil => exact ⟨rfl, rfl⟩
    | cons t2 ts2 =>
      cases hc : cellOf t v with
      | none => simp only [cellAt, wayCells, hc, and_self]
      | some c =>
        have hcS : c ∉ S := hq c (by simp [wayCells, hc])
        have hrc := hag c hcS
        cases hr : readCell h c with
        | none =>
          rw [hr] at hrc
          simp only [cellAt, wayCells, hc, hr, hrc, and_self]
        | some child =>
          rw [hr] at hrc
          have hsub : ∀ c2 ∈ wayCells (t2 :: ts2) h child, c2 ∉ S := by
            intro c2 hc2
            exact hq c2 (by simp [wayCells, hc, hr, hc2])
          obtain ⟨g1, g2⟩ := ih child hsub
          simp only [cellAt, wayCells, hc, hr, hrc, g1, g2, and_self]

/-- Reading a path reads the place it addresses. -/
theorem ptrGet_at (q : List String) (h : Mem) (v : Val) (c : Cell)
    (hc : cellAt q h v = some c) :
    (∀ x, readCell h c = some x → ptrGet q h v = .ok x) ∧
    (readCell h c = none → ∃ e, ptrGet q h v = .error e ∧ e.isPath = true) := by
  induction q generalizing v with
  | nil => simp [cellAt] at hc
  | cons t ts ih =>
    cases ts with
    | nil =>
      simp only [cellAt] at hc
      refine ⟨fun x hx => ?_, fun hn => ptrGet_cons_none t [] h v c hc hn⟩
      rw [ptrGet_cons_some t [] h v c x hc hx]
      rfl
    | cons t2 ts2 =>
      cases hc1 : cellOf t v with
      | none => simp [cellAt, hc1] at hc
      | some c1 =>
        cases hr : readCell h c1 with
        | none => simp [cellAt, hc1, hr] at hc
        | some child =>
          simp only [cellAt, hc1, hr] at hc
          rw [ptrGet_cons_some t (t2 :: ts2) h v c1 child hc1 hr]
          exact ih child hc

/-- A successful `ptrSet` writes the place the path addresses and nothing
else. -/
theorem ptrSet_at (q : List String) (x : Val) (h : Mem) (v : Val) (c : Cell) (h1 : Mem)
    (ops : List MapOp) (hc : cellAt q h v = some c)
    (hs : ptrSet q x h v = .done h1 none ops) :
    agreeOff [c] h h1 ∧ readCell h1 c = some x := by
  induction q generalizing v with
  | nil => simp [cellAt] at hc
  | cons t ts ih =>
    cases ts with
    | nil =>
      simp only [cellAt] at hc
      cases v with
      | map a =>
        simp only [cellOf, Option.some.injEq] at hc
        subst hc
        have hm : h1 = h.putMap a (Entries.put (decodeReferenceToken t) x (h.maps a)) := by
          simp only [ptrSet] at hs
          split at hs
          · simp only [Outcome.done.injEq] at hs
            exact hs.1.symm
          · simp only [Outcome.done.injEq] at hs
            exact hs.1.symm
        subst hm
        refine ⟨agreeOff_putMap_put h a _ x, ?_⟩
        simp [readCell, Mem.putMap, entries_find_put_same]
      | slice a n =>
        simp only [cellOf] at hc
        split at hc
        · rename_i i hi
          simp only [Option.some.injEq] at hc
          subst hc
          simp only [ptrSet, hi, Outcome.done.injEq] at hs
          obtain ⟨hm, -⟩ := hs
          subst hm
          refine ⟨agreeOff_putCell h a i x, ?_⟩
          simp [readCell, Mem.putCell]
        · cases hc
      | null => cases hc
      | bool b => cases hc
      | num b => cases hc
      | str b => cases hc
    | cons t2 ts2 =>
      cases hc1 : cellOf t v with
      | none => simp [cellAt, hc1] at hc
      | some c1 =>
        cases hr : readCell h c1 with
        | none => simp [cellAt, hc1, hr] at hc
        | some child =>
          simp only [cellAt, hc1, hr] at hc
          have hstep : ptrSet (t :: t2 :: ts2) x h v = ptrSet (t2 :: ts2) x h child := by
            cases v with
            | map a =>
              simp only [cellOf, Option.some.injEq] at hc1
              subst hc1
              simp only [readCell] at hr
              simp only [ptrSet, hr]
            | slice a n =>
              simp only [cellOf] at hc1
              split at hc1
              · rename_i i hi
                simp only [Option.some.injEq] at hc1
                subst hc1
                simp only [readCell, Option.some.injEq] at hr
                simp only [ptrSet, hi, hr]
              · cases hc1
            | null => cases hc1
            | bool b => cases hc1
            | num b => cases hc1
            | str b => cases hc1
          rw [hstep] at hs
          exact ih child hc hs

/-- A successful `ptrDelete` of a path that addresses an entry of a map
removes that entry and changes nothing else. -/
theorem ptrDelete_at (q : List String) (prev : Option (Val × String)) (h : Mem) (v : Val)
    (a : Nat) (k : String) (h1 : Mem) (ops : List MapOp)
    (hc : cellAt q h v = some (.entry a k))
    (hs : ptrDelete q prev h v = .done h1 none ops) :
    agreeOff [.entry a k] h h1 ∧ readCell h1 (.entry a k) = none := by
  induction q generalizing v prev with
  | nil => simp [cellAt] at hc
  | cons t ts ih =>
    cases ts with
    | nil =>
      simp only [cellAt] at hc
      cases v with
      | map a2 =>
        simp only [cellOf, Option.some.injEq, Cell.entry.injEq] at hc
        obtain ⟨ha, hk⟩ := hc
        subst ha hk
        simp only [ptrDelete] at hs
        split at hs
        · simp only [Outcome.done.injEq] at hs
          obtain ⟨hm, -⟩ := hs
          subst hm
          refine ⟨agreeOff_putMap_drop h a2 _, ?_⟩
          simp [readCell, Mem.putMap, entries_find_drop_same]
        · simp at hs
      | slice a2 n =>
        simp only [cellOf] at hc
        split at hc
        · simp at hc
        · cases hc
      | null => cases hc
      | bool b => cases hc
      | num b => cases hc
      | str b => cases hc
    | cons t2 ts2 =>
      cases hc1 : cellOf t v with
      | none => simp [cellAt, hc1] at hc
      | some c1 =>
        cases hr : readCell h c1 with
        | none => simp [cellAt, hc1, hr] at hc
        | some child =>
          simp only [cellAt, hc1, hr] at hc
          have hstep : ∃ prev2, ptrDelete (t :: t2 :: ts2) prev h v
              = ptrDelete (t2 :: ts2) prev2 h child := by
            cases v with
            | map a2 =>
              simp only [cellOf, Option.some.injEq] at hc1
              subst hc1
              simp only [readCell] at hr
              exact ⟨some (.map a2, t), by simp only [ptrDelete, hr]⟩
            | slice a2 n =>
              simp only [cellOf] at hc1
              split at hc1
              · rename_i i hi
                simp only [Option.some.injEq] at hc1
                subst hc1
                simp only [readCell, Option.some.injEq] at hr
                exact ⟨some (.slice a2 n, t), by simp only [ptrDelete, hi, hr]⟩
              · cases hc1
            | null => cases hc1
            | bool b => cases hc1
            | num b => cases hc1
            | str b => cases hc1
          obtain ⟨prev2, hstep⟩ := hstep
          rw [hstep] at hs
          exact ih prev2 child hc hs

/-- Once the entry a path addresses is removed, the path does not resolve. -/
theorem ptrGet_gone (q : List String) (h h1 : Mem) (v : Val) (c : Cell)
    (hag : agreeOff [c] h h1) (hn : readCell h1 c = none)
    (hc : cellAt q h v = some c) :
    ∃ e, ptrGet q h1 v = .error e ∧ e.isPath = true := by
  induction q generalizing v with
  | nil => simp [cellAt] at hc
  | cons t ts ih =>
    cases ts with
    | nil =>
      simp only [cellAt] at hc
      exact ptrGet_cons_none t [] h1 v c hc hn
    | cons t2 ts2 =>
      cases hc1 : cellOf t v with
      | none => simp [cellAt, hc1] at hc
      | some c1 =>
        cases hr : readCell h c1 with
        | none => simp [cellAt, hc1, hr] at hc
        | some child =>
          simp only [cellAt, hc1, hr] at hc
          by_cases h1c : c1 = c
          · subst h1c
            exact ptrGet_cons_none t (t2 :: ts2) h1 v c1 hc1 hn
          · have hrc := hag c1 (by simp [h1c])
            rw [hr] at hrc
            rw [ptrGet_cons_some t (t2 :: ts2) h1 v c1 child hc1 hrc]
            exact ih child hc

/-- `SetKey` of a value that rendering leaves as it is, is the write of the
pointer primitive. -/
theorem setKey_plain (T : Template) (h : Mem) (D : Val) (key : String) (p : List String)
    (v : Val) (hp : jsonPtr key = .ok p) (hplain : plainValue T v = true) :
    SetKey T h D key v = ptrSet p v h D := by
  cases v with
  | str s =>
    simp only [plainValue, decide_eq_true_eq] at hplain
    simp only [SetKey, hp, renderTemplate, hplain, if_true]
  | null => simp only [SetKey, hp]
  | bool b => simp only [SetKey, hp]
  | num n => simp only [SetKey, hp]
  | map a => simp only [SetKey, hp]
  | slice a n => simp only [SetKey, hp]

theorem afterOps_fst_length (a : Nat) (ops : List MapOp) (s : List String × List String) :
    (afterOps a ops s).1.length ≤ s.1.length := by
  induction ops generalizing s with
  | nil => exact Nat.le_refl _
  | cons op rest ih =>
    cases op with
    | created a2 k =>
      simp only [afterOps]
      refine Nat.le_trans (ih _) ?_
      split <;> exact Nat.le_refl _
    | removed a2 k =>
      simp only [afterOps]
      refine Nat.le_trans (ih _) ?_
      split
      · exact List.length_erase_le _ _
      · exact Nat.le_refl _

theorem afterOps_fst_mem (a : Nat) (ops : List MapOp) (s : List String × List String)
    (x : String) (hx : x ∈ (afterOps a ops s).1) : x ∈ s.1 := by
  induction ops generalizing s with
  | nil => exact hx
  | cons op rest ih =>
    cases op with
    | created a2 k =>
      simp only [afterOps] at hx
      have := ih _ hx
      split at this <;> exact this
    | removed a2 k =>
      simp only [afterOps] at hx
      have := ih _ hx
      split at this
      · exact List.mem_of_mem_erase this
      · exact this

theorem afterOps_snd_mem (a : Nat) (ops : List MapOp) (s : List String × List String)
    (x : String) (hx : x ∈ (afterOps a ops s).2) : x ∈ s.2 ∨ MapOp.created a x ∈ ops := by
  induction ops generalizing s with
  | nil => exact .inl hx
  | cons op rest ih =>
    cases op with
    | created a2 k =>
      simp only [afterOps] at hx
      rcases ih _ hx with h1 | h1
      · split at h1
        · rename_i hc
          simp only [List.mem_cons] at h1
          rcases h1 with h1 | h1
          · subst h1
            right
            rw [hc.1]
            exact List.mem_cons_self _ _
          · exact .inl h1
        · exact .inl h1
      · exact .inr (List.mem_cons_of_mem _ h1)
    | removed a2 k =>
      simp only [afterOps] at hx
      rcases ih _ hx with h1 | h1
      · split at h1
        · exact .inl (List.mem_of_mem_erase h1)
        · exact .inl h1
      · exact .inr (List.mem_cons_of_mem _ h1)

theorem afterOps_off (a : Nat) (ops : List MapOp) (s : List String × List String)
    (hops : ∀ op ∈ ops, op.addr ≠ a) : afterOps a ops s = s := by
  induction ops generalizing s with
  | nil => rfl
  | cons op rest ih =>
    have hrest : ∀ op ∈ rest, op.addr ≠ a := fun o ho => hops o (List.mem_cons_of_mem _ ho)
    have hop := hops op (List.mem_cons_self _ _)
    cases op with
    | created a2 k =>
      simp only [MapOp.addr] at hop
      simp only [afterOps, hop, false_and, if_false]
      exact ih _ hrest
    | removed a2 k =>
      simp only [MapOp.addr] at hop
      simp only [afterOps, hop, if_false]
      exact ih _ hrest

/-- Whatever the loop body does, the range has a run. -/
theorem walkMap_runs (f : KeyUpdater) (data : Val) (key : String) (a : Nat) (n : Nat) :
    ∀ (todo : List String), todo.length ≤ n → ∀ (h : Mem) (extra : List String),
      ∃ order r, walkMap f data key a order h todo extra = some r := by
  induction n with
  | zero =>
    intro todo hlen h extra
    have : todo = [] := List.length_eq_zero.mp (Nat.le_zero.mp hlen)
    subst this
    exact ⟨[], ([], .done h none []), by simp [walkMap]⟩
  | succ n ih =>
    intro todo hlen h extra
    cases todo with
    | nil => exact ⟨[], ([], .done h none []), by simp [walkMap]⟩
    | cons k rest =>
      cases hcall : callOn f key k h data with
      | panic =>
        exact ⟨[k], ([⟨JoinKey [key, k], h, .panic⟩], .panic), by simp [walkMap, hcall]⟩
      | done h1 err ops =>
        cases err with
        | some e =>
          exact ⟨[k], ([⟨JoinKey [key, k], h, .done h1 (some e) ops⟩], .done h1 (some e) ops),
            by simp [walkMap, hcall]⟩
        | none =>
          have hle : (afterOps a ops (((k :: rest).erase k), extra.erase k)).1.length ≤ n := by
            refine Nat.le_trans (afterOps_fst_length a ops _) ?_
            simp only [List.erase_cons_head]
            simpa using hlen
          obtain ⟨order, r, hr⟩ := ih _ hle h1
            (afterOps a ops (((k :: rest).erase k), extra.erase k)).2
          refine ⟨k :: order, (⟨JoinKey [key, k], h, .done h1 none ops⟩ :: r.1, r.2.after ops), ?_⟩
          simp only [walkMap, List.mem_cons, true_or, if_true, hcall, hr]

theorem sameReturn_after (ops : List MapOp) (o1 o2 : Outcome) (hs : o1.sameReturn o2) :
    (o1.after ops).sameReturn o2 := by
  cases o1 <;> cases o2 <;> simp_all [Outcome.after, Outcome.sameReturn]

theorem succeeded_after (ops : List MapOp) (o : Outcome) :
    (o.after ops).succeeded = o.succeeded := by
  cases o with
  | panic => rfl
  | done h e ops2 => cases e <;> rfl

/-- Every call of a run is the loop body run for a key the map had when the
loop began or got during the loop. -/
theorem walkMap_calls (f : KeyUpdater) (data : Val) (key : String) (a : Nat)
    (order : List String) :
    ∀ (h : Mem) (todo extra : List String) (calls : List Call) (out : Outcome),
      walkMap f data key a order h todo extra = some (calls, out) →
      ∀ c ∈ calls, ∃ k, c.key = JoinKey [key, k] ∧ c.out = callOn f key k c.mem data ∧
        (k ∈ todo ∨ k ∈ extra ∨ ∃ c2 ∈ calls, MapOp.created a k ∈ c2.out.ops) := by
  induction order with
  | nil =>
    intro h todo extra calls out hrun c hc
    simp only [walkMap] at hrun
    split at hrun
    · simp only [Option.some.injEq, Prod.mk.injEq] at hrun
      rw [← hrun.1] at hc
      cases hc
    · cases hrun
  | cons k order ih =>
    intro h todo extra calls out hrun c hc
    simp only [walkMap] at hrun
    split at hrun
    · rename_i hk
      have hk2 : k ∈ todo ∨ k ∈ extra ∨ ∃ c2 ∈ calls, MapOp.created a k ∈ c2.out.ops := by
        rcases hk with hk | hk
        · exact .inl hk
        · exact .inr (.inl hk)
      split at hrun
      · rename_i hcall
        simp only [Option.some.injEq, Prod.mk.injEq] at hrun
        rw [← hrun.1] at hc
        simp only [List.mem_singleton] at hc
        subst hc
        exact ⟨k, rfl, hcall.symm, hk2⟩
      · rename_i h1 err ops hcall
        simp only [Option.some.injEq, Prod.mk.injEq] at hrun
        rw [← hrun.1] at hc
        simp only [List.mem_singleton] at hc
        subst hc
        exact ⟨k, rfl, hcall.symm, hk2⟩
      · rename_i h1 ops hcall
        split at hrun
        · cases hrun
        · rename_i r hr
          simp only [Option.some.injEq, Prod.mk.injEq] at hrun
          obtain ⟨hcalls, -⟩ := hrun
          rw [← hcalls] at hc
          simp only [List.mem_cons] at hc
          rcases hc with hc | hc
          · subst hc
            exact ⟨k, rfl, hcall.symm, hk2⟩
          · obtain ⟨k2, e1, e2, e3⟩ := ih h1 _ _ r.1 r.2 hr c hc
            refine ⟨k2, e1, e2, ?_⟩
            rcases e3 with e3 | e3 | ⟨c2, hc2, e3⟩
            · exact .inl (List.mem_of_mem_erase (afterOps_fst_mem a ops _ k2 e3))
            · rcases afterOps_snd_mem a ops _ k2 e3 with e4 | e4
              · exact .inr (.inl (List.mem_of_mem_erase e4))
              · refine .inr (.inr ⟨⟨JoinKey [key, k], h, .done h1 none ops⟩, ?_, e4⟩)
                rw [← hcalls]
                exact List.mem_cons_self _ _
            · refine .inr (.inr ⟨c2, ?_, e3⟩)
              rw [← hcalls]
              exact List.mem_cons_of_mem _ hc2
    · cases hrun

/-- Each call of a run is made on the memory the call before it left. -/
theorem walkMap_linked (f : KeyUpdater) (data : Val) (key : String) (a : Nat)
    (order : List String) :
    ∀ (h : Mem) (todo extra : List String) (calls : List Call) (out : Outcome),
      walkMap f data key a order h todo extra = some (calls, out) → linked h calls := by
  induction order with
  | nil =>
    intro h todo extra calls out hrun
    simp only [walkMap] at hrun
    split at hrun
    · simp only [Option.some.injEq, Prod.mk.injEq] at hrun
      rw [← hrun.1]
      trivial
    · cases hrun
  | cons k order ih =>
    intro h todo extra calls out hrun
    simp only [walkMap] at hrun
    split at hrun
    · split at hrun
      · simp only [Option.some.injEq, Prod.mk.injEq] at hrun
        rw [← hrun.1]
        exact ⟨rfl, trivial⟩
      · simp only [Option.some.injEq, Prod.mk.injEq] at hrun
        rw [← hrun.1]
        exact ⟨rfl, trivial⟩
      · rename_i h1 ops hcall
        split at hrun
        · cases hrun
        · rename_i r hr
          simp only [Option.some.injEq, Prod.mk.injEq] at hrun
          rw [← hrun.1]
          exact ⟨rfl, ih h1 _ _ r.1 r.2 hr⟩
    · cases hrun

/-- Every call of a run but the last succeeded, and the run returns what the
last call returned. -/
theorem walkMap_last (f : KeyUpdater) (data : Val) (key : String) (a : Nat)
    (order : List String) :
    ∀ (h : Mem) (todo extra : List String) (calls : List Call) (out : Outcome),
      walkMap f data key a order h todo extra = some (calls, out) →
      (calls = [] ∧ out = .done h none []) ∨
      ∃ pre last, calls = pre ++ [last] ∧ (∀ c ∈ pre, c.out.succeeded = true) ∧
        out.sameReturn last.out := by
  induction order with
  | nil =>
    intro h todo extra calls out hrun
    simp only [walkMap] at hrun
    split at hrun
    · simp only [Option.some.injEq, Prod.mk.injEq] at hrun
      exact .inl ⟨hrun.1.symm, hrun.2.symm⟩
    · cases hrun
  | cons k order ih =>
    intro h todo extra calls out hrun
    simp only [walkMap] at hrun
    split at hrun
    · split at hrun
      · simp only [Option.some.injEq, Prod.mk.injEq] at hrun
        refine .inr ⟨[], ⟨JoinKey [key, k], h, .panic⟩, ?_, ?_, ?_⟩
        · rw [← hrun.1]; rfl
        · intro c hc; cases hc
        · rw [← hrun.2]; trivial
      · rename_i h1 err ops hcall
        simp only [Option.some.injEq, Prod.mk.injEq] at hrun
        refine .inr ⟨[], ⟨JoinKey [key, k], h, .done h1 (some err) ops⟩, ?_, ?_, ?_⟩
        · rw [← hrun.1]; rfl
        · intro c hc; cases hc
        · rw [← hrun.2]; exact ⟨rfl, rfl⟩
      · rename_i h1 ops hcall
        split at hrun
        · cases hrun
        · rename_i r hr
          simp only [Option.some.injEq, Prod.mk.injEq] at hrun
          obtain ⟨hcalls, hout⟩ := hrun
          rcases ih h1 _ _ r.1 r.2 hr with ⟨e1, e2⟩ | ⟨pre, last, e1, e2, e3⟩
          · refine .inr ⟨[], ⟨JoinKey [key, k], h, .done h1 none ops⟩, ?_, ?_, ?_⟩
            · rw [← hcalls, e1]; rfl
            · intro c hc; cases hc
            · rw [← hout, e2]; exact ⟨rfl, rfl⟩
          · refine .inr ⟨⟨JoinKey [key, k], h, .done h1 none ops⟩ :: pre, last, ?_, ?_, ?_⟩
            · rw [← hcalls, e1]; rfl
            · intro c hc
              simp only [List.mem_cons] at hc
              rcases hc with hc | hc
              · subst hc; rfl
              · exact e2 c hc
            · rw [← hout]
              exact sameReturn_after ops _ _ e3
    · cases hrun

/-- A run in which every call succeeds and no call creates or removes an
entry of the map ranged over calls the loop body once for each key the range
had yet to produce, and succeeds. -/
theorem walkMap_exact (f : KeyUpdater) (data : Val) (key : String) (a : Nat)
    (order : List String) :
    ∀ (h : Mem) (todo : List String) (calls : List Call) (out : Outcome),
      walkMap f data key a order h todo [] = some (calls, out) →
      (∀ c ∈ calls, c.out.succeeded = true ∧ ∀ op ∈ c.out.ops, op.addr ≠ a) →
      order.Perm todo ∧ calls.map Call.key = childKeys key order ∧
        out.succeeded = true := by
  induction order with
  | nil =>
    intro h todo calls out hrun hall
    simp only [walkMap] at hrun
    split at hrun
    · rename_i ht
      simp only [Option.some.injEq, Prod.mk.injEq] at hrun
      subst ht
      rw [← hrun.1, ← hrun.2]
      exact ⟨List.Perm.refl _, rfl, rfl⟩
    · cases hrun
  | cons k order ih =>
    intro h todo calls out hrun hall
    simp only [walkMap] at hrun
    split at hrun
    · rename_i hk
      have hk : k ∈ todo := by
        rcases hk with hk | hk
        · exact hk
        · cases hk
      split at hrun
      · simp only [Option.some.injEq, Prod.mk.injEq] at hrun
        have := (hall _ (by rw [← hrun.1]; exact List.mem_cons_self _ _)).1
        cases this
      · simp only [Option.some.injEq, Prod.mk.injEq] at hrun
        have := (hall _ (by rw [← hrun.1]; exact List.mem_cons_self _ _)).1
        cases this
      · rename_i h1 ops hcall
        split at hrun
        · cases hrun
        · rename_i r hr
          simp only [Option.some.injEq, Prod.mk.injEq] at hrun
          obtain ⟨hcalls, hout⟩ := hrun
          have hops : ∀ op ∈ ops, op.addr ≠ a :=
            (hall ⟨JoinKey [key, k], h, .done h1 none ops⟩
              (by rw [← hcalls]; exact List.mem_cons_self _ _)).2
          rw [afterOps_off a ops _ hops] at hr
          simp only [List.erase_nil] at hr
          have hrest : ∀ c ∈ r.1, c.out.succeeded = true ∧ ∀ op ∈ c.out.ops, op.addr ≠ a :=
            fun c hc => hall c (by rw [← hcalls]; exact List.mem_cons_of_mem _ hc)
          obtain ⟨p1, p2, p3⟩ := ih h1 _ r.1 r.2 hr hrest
          refine ⟨?_, ?_, ?_⟩
          · exact (List.Perm.cons k p1).trans (List.perm_cons_erase hk).symm
          · rw [← hcalls]
            simp only [List.map_cons, p2, childKeys]
          · rw [← hout, succeeded_after]
            exact p3
    · cases hrun

/-- Below the map at `/a` of `nestedDoc` there are only its own entries. -/
theorem nestedDoc_inside (q : List String) (c : Cell)
    (hc : c ∈ readCells q nestedDoc (.map 1)) : ∃ k, c = .entry 1 k := by
  cases q with
  | nil => cases hc
  | cons t ts =>
    have hm : nestedDoc.maps 1 = [("k", .num 1)] := rfl
    simp only [readCells, cellOf, readCell, hm, Entries.find] at hc
    by_cases hk : "k" = decodeReferenceToken t
    · simp only [hk, if_true] at hc
      cases ts with
      | nil =>
        simp only [readCells, List.mem_singleton] at hc
        exact ⟨_, hc⟩
      | cons t2 ts2 =>
        simp only [readCells, cellOf, List.mem_singleton] at hc
        exact ⟨_, hc⟩
    · simp only [hk, if_false, List.mem_singleton] at hc
      exact ⟨_, hc⟩

/-- An entry of another map is not below the map at `/a` of `nestedDoc`. -/
theorem nestedDoc_off (q : List String) (a : Nat) (k : String) (ha : a ≠ 1) :
    Cell.entry a k ∉ readCells q nestedDoc (.map 1) := by
  intro hc
  obtain ⟨k2, hk⟩ := nestedDoc_inside q _ hc
  simp only [Cell.entry.injEq] at hk
  exact ha hk.1

end InPlace

/-! ### Claims about the chain -/

/-- C1: whenever `Conform` on the head of a chain returns nil, the document
it leaves validates against the head's schema (defaults applied to a copy,
then the copy validated). -/
theorem C1_conform_success_validates (J : Codec) (c : Conformer) (D D1 : Doc)
    (h : c.Conform J D = .done D1 none) : c.validate J D1 = none :=
  conform_done_none J c D D1 h

theorem C1_conform_success_validates_witness :
    moveChain.validate treeCodec (.obj [("key1", .str "val2")]) = none :=
  C1_conform_success_validates treeCodec moveChain (.obj [("key2", .str "val2")]) _ rfl

/-- C2: a document that validates against the node's schema makes `Conform`
return nil with the document as it was, whatever the node's Updater and Next
are: neither is used. -/
theorem C2_conform_valid_untouched (J : Codec) (s : Schema) (u : Updater)
    (next : Option Conformer) (D : Doc)
    (h : (Conformer.mk s u next).validate J D = none) :
    ∀ (u1 : Updater) (next1 : Option Conformer),
      (Conformer.mk s u1 next1).Conform J D = .done D none := by
  intro u1 next1
  apply conform_of_valid
  rw [validate_eq_check] at h ⊢
  exact h

theorem C2_conform_valid_untouched_witness :
    (Conformer.mk schema2 (Delete "/key2") (some moveChain)).Conform treeCodec
        (.obj [("key2", .str "val2")])
      = .done (.obj [("key2", .str "val2")]) none :=
  C2_conform_valid_untouched treeCodec schema2 none none (.obj [("key2", .str "val2")]) rfl
    (Delete "/key2") (some moveChain)

/-- C3: on a chain n0, ..., n(k-1), nk where the document fails the schemas
of n0..n(k-1) and passes that of nk, every updater succeeds and the nodes
n(k-1)..n1 accept the document their updater leaves, `Conform` on the head
leaves the document the updaters produce when run from u(k-1) down to u0, and
returns the result of validating that document against the head's schema. -/
theorem C3_conform_replays_updaters (J : Codec) (nodes : List (Schema × Updater))
    (last : Conformer) (D D0 : Doc)
    (hfail : ∀ p ∈ nodes, Schema.check J p.1 D ≠ none)
    (hlast : last.validate J D = none)
    (hrep : replay nodes D = some D0)
    (hrev : revalidates J nodes.tail D = true) :
    (chain nodes last).Conform J D = .done D0 ((chain nodes last).validate J D0) := by
  cases nodes with
  | nil =>
    simp only [replay, Option.some.injEq] at hrep
    subst hrep
    simp only [chain]
    rw [hlast]
    exact conform_of_valid J last D hlast
  | cons p rest =>
    obtain ⟨s, u⟩ := p
    have hs : Schema.check J s D ≠ none := hfail (s, u) (List.mem_cons_self _ _)
    have hrest : ∀ q ∈ rest, Schema.check J q.1 D ≠ none :=
      fun q hq => hfail q (List.mem_cons_of_mem _ hq)
    simp only [List.tail_cons] at hrev
    simp only [replay] at hrep
    cases h1 : replay rest D with
    | none => rw [h1] at hrep; simp at hrep
    | some D1 =>
      rw [h1] at hrep
      simp only at hrep
      have hin := conform_chain_inner J last D hlast rest D1 hrest h1 hrev
      cases hu : Updater.Do u D1 with
      | panic => rw [hu] at hrep; simp at hrep
      | done d2 e2 =>
        rw [hu] at hrep
        cases e2 with
        | some e => simp at hrep
        | none =>
          simp only [Option.some.injEq] at hrep
          subst hrep
          simp only [chain]
          rw [conform_eq]
          cases hv : Conformer.validate J (.mk s u (some (chain rest last))) D with
          | none =>
            rw [validate_eq_check] at hv
            exact absurd hv hs
          | some err =>
            simp only
            rw [hin]
            simp only
            rw [hu]

theorem C3_conform_replays_updaters_witness :
    moveChain.Conform treeCodec (.obj [("key2", .str "val2")])
      = .done (.obj [("key1", .str "val2")]) none :=
  C3_conform_replays_updaters treeCodec [(schema1, Move plainTemplate "/key2" "/key1")]
    (.mk schema2 none none) (.obj [("key2", .str "val2")]) (.obj [("key1", .str "val2")])
    (by
      intro p hp
      simp only [List.mem_singleton] at hp
      subst hp
      decide)
    rfl rfl rfl

/-- C4: when the document fails the node's validation with error `e`, a node
without Next returns `e`, and a node whose Next fails to conform the document
returns `e` as well, not the deeper error, whatever the node's Updater is: it
is not run. -/
theorem C4_conform_own_error (J : Codec) (s : Schema) (u : Updater)
    (next : Option Conformer) (D : Doc) (e : Err)
    (h : (Conformer.mk s u next).validate J D = some e) :
    (next = none → (Conformer.mk s u next).Conform J D = .done D (some e)) ∧
    (∀ (n : Conformer) (D1 : Doc) (e1 : Err), next = some n →
      n.Conform J D = .done D1 (some e1) →
      ∀ u1 : Updater, (Conformer.mk s u1 next).Conform J D = .done D1 (some e)) := by
  constructor
  · intro hn
    subst hn
    rw [conform_eq, h]
  · intro n D1 e1 hn hc u1
    subst hn
    have h1 : (Conformer.mk s u1 (some n)).validate J D = some e := by
      rw [validate_eq_check] at h ⊢
      exact h
    rw [conform_eq, h1]
    simp only
    rw [hc]

theorem C4_conform_own_error_witness :
    moveChain.Conform treeCodec (.obj [("other", .str "x")])
      = .done (.obj [("other", .str "x")])
          (schema1.Validate (.obj [("other", .str "x"), ("key1", .str "def1")])) :=
  (C4_conform_own_error treeCodec schema1 (Move plainTemplate "/key2" "/key1")
    (some (.mk schema2 none none)) (.obj [("other", .str "x")])
    (.validation "schema1: the document does not match the schema") rfl).2
    (.mk schema2 none none) (.obj [("other", .str "x")])
    (.validation "schema2: the document does not match the schema") rfl rfl
    (Move plainTemplate "/key2" "/key1")

/-- C5: when the document fails the node's validation with error `e`, Next
conforms it, and the node's Updater then fails, `Conform` returns `e`: the
Updater's error is dropped and the document is not validated again. -/
theorem C5_conform_updater_error_hidden (J : Codec) (s : Schema) (u : Updater)
    (n : Conformer) (D D1 D2 : Doc) (e ue : Err)
    (h : (Conformer.mk s u (some n)).validate J D = some e)
    (hc : n.Conform J D = .done D1 none)
    (hu : Updater.Do u D1 = .done D2 (some ue)) :
    (Conformer.mk s u (some n)).Conform J D = .done D2 (some e) := by
  rw [conform_eq, h]
  simp only
  rw [hc]
  simp only
  rw [hu]

theorem C5_conform_updater_error_hidden_witness :
    stuckChain.Conform treeCodec (.obj [("key2", .str "val2")])
      = .done (.obj [("key2", .str "val2")])
          (some (.validation "schema1: the document does not match the schema")) :=
  C5_conform_updater_error_hidden treeCodec schema1 (Move plainTemplate "/missing" "/key1")
    (.mk schema2 none none) (.obj [("key2", .str "val2")]) (.obj [("key2", .str "val2")])
    (.obj [("key2", .str "val2")])
    (.validation "schema1: the document does not match the schema")
    (.path "Object has no key missing") rfl rfl rfl

/-- C6: `Conform` is idempotent on its successful results: after a call that
returned nil and left `D1`, a second call on `D1` returns nil and leaves `D1`,
whatever the head's Updater and Next are: neither is used. -/
theorem C6_conform_idempotent (J : Codec) (s : Schema) (u : Updater)
    (next : Option Conformer) (D D1 : Doc)
    (h : (Conformer.mk s u next).Conform J D = .done D1 none) :
    (Conformer.mk s u next).Conform J D1 = .done D1 none ∧
    ∀ (u1 : Updater) (next1 : Option Conformer),
      (Conformer.mk s u1 next1).Conform J D1 = .done D1 none := by
  have hv := conform_done_none J _ D D1 h
  refine ⟨conform_of_valid J _ D1 hv, ?_⟩
  intro u1 next1
  apply conform_of_valid
  rw [validate_eq_check] at hv ⊢
  exact hv

theorem C6_conform_idempotent_witness :
    moveChain.Conform treeCodec (.obj [("key1", .str "val2")])
      = .done (.obj [("key1", .str "val2")]) none :=
  (C6_conform_idempotent treeCodec schema1 (Move plainTemplate "/key2" "/key1")
    (some (.mk schema2 none none)) (.obj [("key2", .str "val2")])
    (.obj [("key1", .str "val2")]) rfl).1

/-! ### Claims about Move -/

namespace InPlace

/-- C7 (amended): a place is an entry of a map or a cell of an array in
memory.  When `Move(a, b)` succeeds, `a` addresses an entry of a map, `b`
addresses another place, neither place is passed on the way to `b`, the place
of `b` is not passed on the way to `a`, neither place lies inside the value
`v` that was at `a`, and `v` is not a string with a placeholder, then
afterwards `Get(b)` yields `v`, `v` reads as before at every path below it,
and `Get(a)` fails with a path error. -/
theorem C7_move_between_places (T : Template) (h : Mem) (D : Val) (a b : String) (v : Val)
    (h2 : Mem) (ops : List MapOp) (m : Nat) (k : String) (cb : Cell)
    (hget : GetKey h D a = .ok v)
    (hmove : MoveKey T h D a b = .done h2 none ops)
    (hplain : plainValue T v = true)
    (hA : placeOf h D a = some (.entry m k))
    (hB : placeOf h D b = some cb)
    (hne : cb ≠ .entry m k)
    (hwayA : cb ∉ wayOf h D a)
    (hwayB : cb ∉ wayOf h D b ∧ Cell.entry m k ∉ wayOf h D b)
    (hin : ∀ q, cb ∉ readCells q h v ∧ Cell.entry m k ∉ readCells q h v) :
    GetKey h2 D b = .ok v ∧ (∀ key, GetKey h2 v key = GetKey h v key) ∧
    ∃ e, GetKey h2 D a = .error e ∧ e.isPath = true := by
  cases hpa : jsonPtr a with
  | error e => simp [placeOf, hpa] at hA
  | ok pa =>
  cases hpb : jsonPtr b with
  | error e => simp [placeOf, hpb] at hB
  | ok pb =>
  simp only [placeOf, hpa] at hA
  simp only [placeOf, hpb] at hB
  simp only [wayOf, hpa] at hwayA
  simp only [wayOf, hpb] at hwayB
  simp only [MoveKey, CopyKey, hget, setKey_plain T h D b pb v hpb hplain, DeleteKey, hpa]
    at hmove
  cases hset : ptrSet pb v h D with
  | panic => simp [hset] at hmove
  | done h1 err1 ops1 =>
    rw [hset] at hmove
    cases err1 with
    | some e => simp at hmove
    | none =>
      simp only at hmove
      cases hdel : ptrDelete pa none h1 D with
      | panic => simp [hdel] at hmove
      | done h2b err2 ops2 =>
        rw [hdel] at hmove
        simp only [Outcome.done.injEq] at hmove
        obtain ⟨hm, he, -⟩ := hmove
        subst hm he
        obtain ⟨ag1, rd1⟩ := ptrSet_at pb v h D cb h1 ops1 hB hset
        have fa := cellAt_frame [cb] h h1 ag1 pa D
          (fun c hc => by
            intro hmem
            simp only [List.mem_singleton] at hmem
            subst hmem
            exact hwayA hc)
        have fb := cellAt_frame [cb] h h1 ag1 pb D
          (fun c hc => by
            intro hmem
            simp only [List.mem_singleton] at hmem
            subst hmem
            exact hwayB.1 hc)
        have hA1 : cellAt pa h1 D = some (.entry m k) := by rw [fa.1]; exact hA
        obtain ⟨ag2, rd2⟩ := ptrDelete_at pa none h1 D m k h2b ops2 hA1 hdel
        have fb2 := cellAt_frame [.entry m k] h1 h2b ag2 pb D
          (fun c hc => by
            intro hmem
            simp only [List.mem_singleton] at hmem
            subst hmem
            rw [fb.2] at hc
            exact hwayB.2 hc)
        have hB2 : cellAt pb h2b D = some cb := by rw [fb2.1, fb.1]; exact hB
        have rdB : readCell h2b cb = some v := by
          rw [ag2 cb (by simpa using hne)]
          exact rd1
        refine ⟨?_, ?_, ?_⟩
        · simp only [GetKey, hpb]
          exact (ptrGet_at pb h2b D cb hB2).1 v rdB
        · intro key
          simp only [GetKey]
          cases jsonPtr key with
          | error e => rfl
          | ok q =>
            simp only
            have g1 := ptrGet_frame [cb] h h1 ag1 q v
              (fun c hc => by
                intro hmem
                simp only [List.mem_singleton] at hmem
                subst hmem
                exact (hin q).1 hc)
            have g2 := ptrGet_frame [.entry m k] h1 h2b ag2 q v
              (fun c hc => by
                intro hmem
                simp only [List.mem_singleton] at hmem
                subst hmem
                rw [g1.2] at hc
                exact (hin q).2 hc)
            rw [g2.1, g1.1]
        · simp only [GetKey, hpa]
          exact ptrGet_gone pa h1 h2b D (.entry m k) ag2 rd2 hA1

theorem C7_move_between_places_witness :
    (GetKey (afterMove key2Doc "/key2" "/key1") (.map 0) "/key1" = .ok (.str "val2") ∧
      (∀ key, GetKey (afterMove key2Doc "/key2" "/key1") (.str "val2") key
        = GetKey key2Doc (.str "val2") key) ∧
      ∃ e, GetKey (afterMove key2Doc "/key2" "/key1") (.map 0) "/key2" = .error e ∧
        e.isPath = true) ∧
    (GetKey (afterMove nestedDoc "/a" "/c/d") (.map 0) "/c/d" = .ok (.map 1) ∧
      (∀ key, GetKey (afterMove nestedDoc "/a" "/c/d") (.map 1) key
        = GetKey nestedDoc (.map 1) key) ∧
      ∃ e, GetKey (afterMove nestedDoc "/a" "/c/d") (.map 0) "/a" = .error e ∧
        e.isPath = true) :=
  ⟨C7_move_between_places (goTemplate 8) key2Doc (.map 0) "/key2" "/key1" (.str "val2")
      (afterMove key2Doc "/key2" "/key1")
      (MoveKey (goTemplate 8) key2Doc (.map 0) "/key2" "/key1").ops 0 "key2" (.entry 0 "key1")
      rfl rfl rfl rfl rfl (by decide) (by decide) (by decide)
      (fun q => by cases q <;> exact ⟨by simp [readCells, cellOf], by simp [readCells, cellOf]⟩),
    C7_move_between_places (goTemplate 8) nestedDoc (.map 0) "/a" "/c/d" (.map 1)
      (afterMove nestedDoc "/a" "/c/d")
      (MoveKey (goTemplate 8) nestedDoc (.map 0) "/a" "/c/d").ops 0 "a" (.entry 2 "d")
      rfl rfl rfl rfl rfl (by decide) (by decide) (by decide)
      (fun q => ⟨nestedDoc_off q 2 "d" (by decide), nestedDoc_off q 0 "a" (by decide)⟩)⟩

/-- C7 (counterexample): moves that succeed and do not leave what the claim
says, one for each condition of the amended claim.
(1) `Move("/arr/0", "/x")` on `{"arr": [1, 2]}`: `a` addresses a cell of an
array, and afterwards `Get("/arr/0")` succeeds: it yields 2.
(2) `Move("/a", "/b")` on `{"a": "{{key "/c"}}", "c": "x"}`: the value at `a`
is a placeholder, and afterwards `Get("/b")` yields `x`.
(3) `Move("/x/k", "/y/k")` on the document `Copy("/x", "/y")` leaves from
`{"x": {"k": 1}}`: both paths address the same entry of the one map, and
afterwards `Get("/y/k")` fails.
(4) `Move("/a", "/a/b")` on `{"a": {}}`: the place of `a` is on the way to `b`,
and afterwards `Get("/a/b")` fails.
(5) `Move("/a/b", "/a")` on `{"a": {"b": {"b": 1}}}`: the place of `b` is on
the way to `a`; afterwards `Get("/a")` yields the map that was at `/a/b`, which
held `{"b": 1}` and is now empty.
(6) `Move("/a", "/x/x")` on the document `Copy("", "/x")` leaves from
`{"a": 1}`: the place of `b` is on its own way, and afterwards `Get("/x/x")`
fails.
(7) `Move("/a", "/c/b")` on the document `Copy("/a", "/c")` leaves from
`{"a": {}}`: the place of `b` lies inside the value moved, which was empty and
now holds itself at `b`.
(8) `Move("/a", "/b")` on the document `Copy("", "/a/z")` leaves from
`{"a": {}}`: the place of `a` lies inside the value moved, which read as
itself at `/z/a` and does not any more. -/
theorem C7_move_other_outcomes :
    (GetKey arrDoc (.map 0) "/arr/0" = .ok (.num 1) ∧
      placeOf arrDoc (.map 0) "/arr/0" = some (.item 1 0) ∧
      (MoveKey (goTemplate 8) arrDoc (.map 0) "/arr/0" "/x").succeeded = true ∧
      GetKey (afterMove arrDoc "/arr/0" "/x") (.map 0) "/arr/0" = .ok (.num 2)) ∧
    (GetKey placeholderDoc (.map 0) "/a" = .ok (.str "\x7b\x7bkey \"/c\"\x7d\x7d") ∧
      plainValue (goTemplate 8) (.str "\x7b\x7bkey \"/c\"\x7d\x7d") = false ∧
      (MoveKey (goTemplate 8) placeholderDoc (.map 0) "/a" "/b").succeeded = true ∧
      GetKey (afterMove placeholderDoc "/a" "/b") (.map 0) "/b" = .ok (.str "x")) ∧
    (GetKey sharedDoc (.map 0) "/x/k" = .ok (.num 1) ∧
      placeOf sharedDoc (.map 0) "/x/k" = some (.entry 1 "k") ∧
      placeOf sharedDoc (.map 0) "/y/k" = some (.entry 1 "k") ∧
      (MoveKey (goTemplate 8) sharedDoc (.map 0) "/x/k" "/y/k").succeeded = true ∧
      GetKey (afterMove sharedDoc "/x/k" "/y/k") (.map 0) "/y/k"
        = .error (.path "Object has no key k")) ∧
    (GetKey emptyAtA (.map 0) "/a" = .ok (.map 1) ∧
      placeOf emptyAtA (.map 0) "/a" = some (.entry 0 "a") ∧
      wayOf emptyAtA (.map 0) "/a/b" = [.entry 0 "a"] ∧
      (MoveKey (goTemplate 8) emptyAtA (.map 0) "/a" "/a/b").succeeded = true ∧
      GetKey (afterMove emptyAtA "/a" "/a/b") (.map 0) "/a/b"
        = .error (.path "Object has no key a")) ∧
    (GetKey deepDoc (.map 0) "/a/b" = .ok (.map 2) ∧
      GetKey deepDoc (.map 2) "/b" = .ok (.num 1) ∧
      placeOf deepDoc (.map 0) "/a" = some (.entry 0 "a") ∧
      wayOf deepDoc (.map 0) "/a/b" = [.entry 0 "a"] ∧
      (MoveKey (goTemplate 8) deepDoc (.map 0) "/a/b" "/a").succeeded = true ∧
      GetKey (afterMove deepDoc "/a/b" "/a") (.map 0) "/a" = .ok (.map 2) ∧
      GetKey (afterMove deepDoc "/a/b" "/a") (.map 2) "/b"
        = .error (.path "Object has no key b")) ∧
    (GetKey selfDoc (.map 0) "/a" = .ok (.num 1) ∧
      placeOf selfDoc (.map 0) "/x/x" = some (.entry 0 "x") ∧
      wayOf selfDoc (.map 0) "/x/x" = [.entry 0 "x"] ∧
      (MoveKey (goTemplate 8) selfDoc (.map 0) "/a" "/x/x").succeeded = true ∧
      GetKey (afterMove selfDoc "/a" "/x/x") (.map 0) "/x/x"
        = .error (.path "Invalid token reference x")) ∧
    (GetKey twinDoc (.map 0) "/a" = .ok (.map 1) ∧
      GetKey twinDoc (.map 1) "/b" = .error (.path "Object has no key b") ∧
      placeOf twinDoc (.map 0) "/c/b" = some (.entry 1 "b") ∧
      readCells ["b"] twinDoc (.map 1) = [.entry 1 "b"] ∧
      (MoveKey (goTemplate 8) twinDoc (.map 0) "/a" "/c/b").succeeded = true ∧
      GetKey (afterMove twinDoc "/a" "/c/b") (.map 0) "/c/b" = .ok (.map 1) ∧
      GetKey (afterMove twinDoc "/a" "/c/b") (.map 1) "/b" = .ok (.map 1)) ∧
    (GetKey loopDoc (.map 0) "/a" = .ok (.map 1) ∧
      GetKey loopDoc (.map 1) "/z/a" = .ok (.map 1) ∧
      placeOf loopDoc (.map 0) "/a" = some (.entry 0 "a") ∧
      readCells ["z", "a"] loopDoc (.map 1) = [.entry 1 "z", .entry 0 "a"] ∧
      (MoveKey (goTemplate 8) loopDoc (.map 0) "/a" "/b").succeeded = true ∧
      GetKey (afterMove loopDoc "/a" "/b") (.map 0) "/b" = .ok (.map 1) ∧
      GetKey (afterMove loopDoc "/a" "/b") (.map 1) "/z/a"
        = .error (.path "Object has no key a")) :=
  ⟨⟨rfl, rfl, rfl, rfl⟩, ⟨rfl, rfl, rfl, rfl⟩, ⟨rfl, rfl, rfl, rfl, rfl⟩,
    ⟨rfl, rfl, rfl, rfl, rfl⟩, ⟨rfl, rfl, rfl, rfl, rfl, rfl, rfl⟩, ⟨rfl, rfl, rfl, rfl, rfl⟩,
    ⟨rfl, rfl, rfl, rfl, rfl, rfl, rfl⟩, ⟨rfl, rfl, rfl, rfl, rfl, rfl, rfl⟩⟩

end InPlace

/-- C8: when the `Copy(from, to)` step of `Move(from, to)` fails, `Move`
returns that error and the document is left as it was: `Copy` itself left it
unmodified, and nothing is done after it. -/
theorem C8_move_copy_failure (T : Template) (D D1 : Doc) (src dst : String) (e : Err)
    (h : CopyKey T D src dst = (D1, some e)) :
    MoveKey T D src dst = (D, some e) ∧ D1 = D := by
  have hD : D1 = D := by
    unfold CopyKey at h
    cases hg : GetKey D src with
    | error err =>
      rw [hg] at h
      simp only [Prod.mk.injEq] at h
      exact h.1.symm
    | ok val =>
      rw [hg] at h
      exact setKey_error_same T D dst val D1 e h
  subst hD
  refine ⟨?_, rfl⟩
  simp only [MoveKey, h]

theorem C8_move_copy_failure_witness :
    MoveKey plainTemplate (.obj [("a", .num 1)]) "/a" "/a/c"
        = (.obj [("a", .num 1)], some (.path "Invalid token reference c")) ∧
      Doc.obj [("a", .num 1)] = .obj [("a", .num 1)] :=
  C8_move_copy_failure plainTemplate (.obj [("a", .num 1)]) (.obj [("a", .num 1)])
    "/a" "/a/c" (.path "Invalid token reference c") rfl

/-- C9 (amended): when the `Copy` step of `Move(from, to)` succeeds and
`Delete(from)` fails, `Move` returns the delete error and leaves the document
as `Copy` left it; there `Get(to)` yields the value `Copy` wrote, and
`Get(from)` fails with the delete error: the value is at `to` only. -/
theorem C9_move_delete_failure (T : Template) (D D1 D2 : Doc) (src dst : String)
    (v : Doc) (e : Err)
    (hget : GetKey D src = .ok v)
    (hcopy : CopyKey T D src dst = (D1, none))
    (hdel : DeleteKey D1 src = (D2, some e)) :
    MoveKey T D src dst = (D1, some e) ∧ D2 = D1 ∧
      GetKey D1 src = .error e ∧
      ∃ w, rendered T D v = .ok w ∧ GetKey D1 dst = .ok w := by
  cases hpa : jsonPtr src with
  | error err => simp [GetKey, hpa] at hget
  | ok pa =>
    simp only [DeleteKey, hpa] at hdel
    have h2 : (ptrDelete pa D1).2 = some e := by rw [hdel]
    obtain ⟨g1, g2⟩ := ptrDelete_error pa D1 e h2
    rw [hdel] at g1
    simp only at g1
    subst g1
    have hsrc : GetKey D2 src = .error e := by simp only [GetKey, hpa, g2]
    refine ⟨?_, rfl, hsrc, ?_⟩
    · simp only [MoveKey, hcopy, DeleteKey, hpa, hdel]
    · simp only [CopyKey, hget] at hcopy
      cases hpb : jsonPtr dst with
      | error err => simp [SetKey, hpb] at hcopy
      | ok pb =>
        rw [setKey_eq T D dst v pb hpb] at hcopy
        cases hr : rendered T D v with
        | error err => rw [hr] at hcopy; simp at hcopy
        | ok w =>
          rw [hr] at hcopy
          simp only at hcopy
          refine ⟨w, rfl, ?_⟩
          simp only [GetKey, hpb]
          apply ptrGet_after_set pb w D D2 ?_ hcopy
          intro hnil
          subst hnil
          simp only [ptrSet, Prod.mk.injEq, and_true] at hcopy
          subst hcopy
          rw [hget] at hsrc
          cases hsrc

theorem C9_move_delete_failure_witness :
    MoveKey plainTemplate (.obj [("a", .obj [("b", .num 1)])]) "/a/b" "/a"
        = (.obj [("a", .num 1)], some (.path "Invalid token reference b")) ∧
      Doc.obj [("a", .num 1)] = .obj [("a", .num 1)] ∧
      GetKey (.obj [("a", .num 1)]) "/a/b" = .error (.path "Invalid token reference b") ∧
      ∃ w, rendered plainTemplate (.obj [("a", .obj [("b", .num 1)])]) (.num 1) = .ok w ∧
        GetKey (.obj [("a", .num 1)]) "/a" = .ok w :=
  C9_move_delete_failure plainTemplate (.obj [("a", .obj [("b", .num 1)])])
    (.obj [("a", .num 1)]) (.obj [("a", .num 1)]) "/a/b" "/a" (.num 1)
    (.path "Invalid token reference b") rfl rfl rfl

/-- C9 (counterexample): on `{"a": {"b": 1}}`, `Move("/a/b", "/a")` copies 1
to `/a`, then `Delete("/a/b")` fails; `Move` returns the delete error and in
the document it leaves, `Get("/a/b")` fails: the value is not at both paths. -/
theorem C9_value_not_at_both_paths_counterexample :
    GetKey (.obj [("a", .obj [("b", .num 1)])]) "/a/b" = .ok (.num 1) ∧
    CopyKey plainTemplate (.obj [("a", .obj [("b", .num 1)])]) "/a/b" "/a"
      = (.obj [("a", .num 1)], none) ∧
    DeleteKey (.obj [("a", .num 1)]) "/a/b"
      = (.obj [("a", .num 1)], some (.path "Invalid token reference b")) ∧
    MoveKey plainTemplate (.obj [("a", .obj [("b", .num 1)])]) "/a/b" "/a"
      = (.obj [("a", .num 1)], some (.path "Invalid token reference b")) ∧
    GetKey (.obj [("a", .num 1)]) "/a/b" ≠ .ok (.num 1) :=
  ⟨rfl, rfl, rfl, rfl, fun h => by cases h⟩

/-! ### Claims about Walk -/

namespace InPlace

/-- C10 (amended): `Walk(p, f)` on a path that resolves to a mapping with N
entries, `f` not nil; a run is what `Walk` does for one of the orders in
which Go may produce the keys.  There is a run.  In every run: each call is
`f(JoinKey(p, k)).Do` for a key `k` that the mapping had when the walk began
or that a call of the run created; each call is made on the memory the call
before it left, the first on the memory at entry; every call but the last
succeeded, and `Walk` returns what the last call returned, so a failing call
ends the walk and its error comes back unchanged.  If every call succeeds and
none creates or removes an entry of the mapping, `f` is called exactly N
times, once for each key, and `Walk` returns nil. -/
theorem C10_walk_mapping_runs (f : String → Updater) (h : Mem) (D : Val) (p : String)
    (a : Nat) (hp : GetKey h D p = .ok (.map a)) :
    (∃ order r, WalkKeyCalls order h D p (some f) = some r) ∧
    ∀ order calls out, WalkKeyCalls order h D p (some f) = some (calls, out) →
      (∀ c ∈ calls, ∃ k, c.key = JoinKey [p, k] ∧ c.out = Updater.Do (f c.key) c.mem D ∧
        (k ∈ Entries.keys (h.maps a) ∨ ∃ c2 ∈ calls, MapOp.created a k ∈ c2.out.ops)) ∧
      linked h calls ∧
      ((calls = [] ∧ out = .done h none []) ∨
        ∃ pre last, calls = pre ++ [last] ∧ (∀ c ∈ pre, c.out.succeeded = true) ∧
          out.sameReturn last.out) ∧
      ((∀ c ∈ calls, c.out.succeeded = true ∧ ∀ op ∈ c.out.ops, op.addr ≠ a) →
        (calls.map Call.key).Perm (childKeys p (Entries.keys (h.maps a))) ∧
        calls.length = (Entries.keys (h.maps a)).length ∧ out.succeeded = true) := by
  have hw : ∀ order, WalkKeyCalls order h D p (some f)
      = walkMap (some f) D p a order h (Entries.keys (h.maps a)) [] := by
    intro order
    simp only [WalkKeyCalls, hp]
  refine ⟨?_, ?_⟩
  · obtain ⟨order, r, hr⟩ := walkMap_runs (some f) D p a _ (Entries.keys (h.maps a))
      (Nat.le_refl _) h []
    exact ⟨order, r, by rw [hw]; exact hr⟩
  · intro order calls out hrun
    rw [hw] at hrun
    refine ⟨?_, walkMap_linked _ _ _ _ _ _ _ _ _ _ hrun,
      walkMap_last _ _ _ _ _ _ _ _ _ _ hrun, ?_⟩
    · intro c hc
      obtain ⟨k, e1, e2, e3⟩ := walkMap_calls _ _ _ _ _ _ _ _ _ _ hrun c hc
      refine ⟨k, e1, ?_, ?_⟩
      · rw [e2, e1]
        rfl
      · rcases e3 with e3 | e3 | e3
        · exact .inl e3
        · cases e3
        · exact .inr e3
    · intro hall
      obtain ⟨p1, p2, p3⟩ := walkMap_exact _ _ _ _ _ _ _ _ _ hrun hall
      refine ⟨?_, ?_, p3⟩
      · rw [p2]
        exact List.Perm.map _ p1
      · have := congrArg List.length p2
        simp only [List.length_map, childKeys] at this
        rw [this]
        exact p1.length_eq

theorem C10_walk_mapping_runs_witness :
    (∃ order r, WalkKeyCalls order twoEntries (.map 0) "/m" (some zeroChild) = some r) ∧
    ∀ order calls out,
      WalkKeyCalls order twoEntries (.map 0) "/m" (some zeroChild) = some (calls, out) →
      (∀ c ∈ calls, ∃ k, c.key = JoinKey ["/m", k] ∧
        c.out = Updater.Do (zeroChild c.key) c.mem (.map 0) ∧
        (k ∈ Entries.keys (twoEntries.maps 1) ∨
          ∃ c2 ∈ calls, MapOp.created 1 k ∈ c2.out.ops)) ∧
      linked twoEntries calls ∧
      ((calls = [] ∧ out = .done twoEntries none []) ∨
        ∃ pre last, calls = pre ++ [last] ∧ (∀ c ∈ pre, c.out.succeeded = true) ∧
          out.sameReturn last.out) ∧
      ((∀ c ∈ calls, c.out.succeeded = true ∧ ∀ op ∈ c.out.ops, op.addr ≠ 1) →
        (calls.map Call.key).Perm (childKeys "/m" (Entries.keys (twoEntries.maps 1))) ∧
        calls.length = (Entries.keys (twoEntries.maps 1)).length ∧ out.succeeded = true) :=
  C10_walk_mapping_runs zeroChild twoEntries (.map 0) "/m" 1 rfl

/-- A walk goes on over the map it began with: when the first call stores
another map at `/m`, the entries of the map that was there are still produced,
and the later calls find the new map at `/m`. -/
theorem walk_replaced_mapping :
    summary (WalkKeyCalls ["a", "b"] twoEntries (.map 0) "/m" (some replaceMapping))
      = some ([("/m/a", true), ("/m/b", true)], true) ∧
    summary (WalkKeyCalls ["a"] twoEntries (.map 0) "/m" (some replaceMapping)) = none ∧
    GetKey ((Updater.Do (replaceMapping "/m/a") twoEntries (.map 0)).memOr twoEntries)
      (.map 0) "/m" = .ok (.map 2) :=
  ⟨rfl, rfl, rfl⟩

/-- C10 (counterexample): `/m` resolves to a mapping with 2 entries.  With the
KeyUpdater that returns `Delete("/m/a").Then(Delete("/m/b"))` for every child
key, every call succeeds and every run makes 1 call, not 2: the first call
empties the mapping and Go does not produce the entry not yet reached.  With
the KeyUpdater that returns `Set("/m/zz", 0)` on a mapping with 1 entry, every
call succeeds, and there is a run with 1 call and a run with 2 calls, in which
the entry made by the first call is produced. -/
theorem C10_walk_other_counts :
    (Entries.keys (twoEntries.maps 1) = ["a", "b"] ∧
      summary (WalkKeyCalls ["a"] twoEntries (.map 0) "/m" (some clearBoth))
        = some ([("/m/a", true)], true) ∧
      summary (WalkKeyCalls ["b"] twoEntries (.map 0) "/m" (some clearBoth))
        = some ([("/m/b", true)], true) ∧
      ∀ order r, WalkKeyCalls order twoEntries (.map 0) "/m" (some clearBoth) = some r →
        r.1.length = 1 ∧ r.2.succeeded = true) ∧
    (Entries.keys (oneEntry.maps 1) = ["a"] ∧
      summary (WalkKeyCalls ["a"] oneEntry (.map 0) "/m" (some addEntry))
        = some ([("/m/a", true)], true) ∧
      summary (WalkKeyCalls ["a", "zz"] oneEntry (.map 0) "/m" (some addEntry))
        = some ([("/m/a", true), ("/m/zz", true)], true)) := by
  refine ⟨⟨by decide, rfl, rfl, ?_⟩, by decide, rfl, rfl⟩
  intro order r hrun
  have hg : GetKey twoEntries (.map 0) "/m" = .ok (.map 1) := rfl
  have hk : Entries.keys (twoEntries.maps 1) = ["a", "b"] := by decide
  simp only [WalkKeyCalls, hg, hk] at hrun
  cases order with
  | nil => simp [walkMap] at hrun
  | cons k rest =>
    simp only [walkMap] at hrun
    split at hrun
    · rename_i hmem
      have hcall : callOn (some clearBoth) "/m" k twoEntries (.map 0)
          = .done ((Updater.Do (clearBoth "") twoEntries (.map 0)).memOr twoEntries) none
              [.removed 1 "a", .removed 1 "b"] := rfl
      have hst : afterOps 1 [.removed 1 "a", .removed 1 "b"]
          (["a", "b"].erase k, ([] : List String).erase k) = ([], []) := by
        simp only [List.mem_cons, List.not_mem_nil, or_false] at hmem
        rcases hmem with hmem | hmem
        · subst hmem
          decide
        · subst hmem
          decide
      rw [hcall] at hrun
      simp only [hst] at hrun
      cases rest with
      | nil =>
        simp only [walkMap, if_true, Option.some.injEq] at hrun
        rw [← hrun]
        exact ⟨rfl, rfl⟩
      | cons k2 rest2 =>
        simp [walkMap] at hrun
    · cases hrun

end InPlace

/-! ### Compose -/

theorem foldl_then_do (us : List Updater) :
    ∀ (acc : Updater) (data : Doc),
      Updater.Do (us.foldl Updater.Then acc) data =
        match Updater.Do acc data with
        | .done data1 none => runInOrder us data1
        | other => other := by
  induction us with
  | nil =>
    intro acc data
    simp only [List.foldl_nil, runInOrder]
    cases Updater.Do acc data with
    | panic => rfl
    | done d e => cases e <;> rfl
  | cons u rest ih =>
    intro acc data
    simp only [List.foldl_cons]
    rw [ih]
    simp only [Updater.Then, Updater.Do, runInOrder]
    cases hacc : Updater.Do acc data with
    | panic => simp only [Updater.Do] at hacc; rw [hacc]
    | done d e =>
      simp only [Updater.Do] at hacc
      rw [hacc]
      cases e <;> rfl

/-- C14: `Compose(u1, ..., un).Do(D)` runs the updaters in order on the
document, stops at the first one that fails (or panics) and returns what it
returned, with the edits of the earlier ones applied, and returns nil when
all succeed; nil updaters succeed without effect, and for the empty list the
result is nil and the document is untouched. -/
theorem C14_compose_runs_in_order (us : List Updater) (D : Doc) :
    Updater.Do (Compose us) D = runInOrder us D ∧
    Updater.Do (Compose []) D = .done D none ∧
    (∀ (pre post : List Updater) (u : Updater) (D1 D2 : Doc) (e : Err),
      us = pre ++ u :: post → runInOrder pre D = .done D1 none →
      Updater.Do u D1 = .done D2 (some e) →
      Updater.Do (Compose us) D = .done D2 (some e)) ∧
    (∀ (D1 : Doc), runInOrder us D = .done D1 none →
      Updater.Do (Compose us) D = .done D1 none) := by
  have h1 : Updater.Do (Compose us) D = runInOrder us D := by
    unfold Compose
    rw [foldl_then_do]
    rfl
  refine ⟨h1, rfl, ?_, ?_⟩
  · intro pre post u D1 D2 e hus hpre hu
    rw [h1, hus]
    clear h1 hus
    induction pre generalizing D with
    | nil =>
      simp only [runInOrder, Outcome.done.injEq, and_true] at hpre
      subst hpre
      simp only [List.nil_append, runInOrder, hu]
    | cons v rest ih =>
      simp only [runInOrder] at hpre
      simp only [List.cons_append, runInOrder]
      cases hv : Updater.Do v D with
      | panic => rw [hv] at hpre; cases hpre
      | done d1 e1 =>
        rw [hv] at hpre
        cases e1 with
        | some err => simp at hpre
        | none => exact ih d1 hpre
  · intro D1 h
    rw [h1, h]

theorem C14_compose_runs_in_order_witness :
    Updater.Do (Compose [Set plainTemplate "/a" (.num 1), none, Delete "/missing",
        Set plainTemplate "/b" (.num 2)]) (.obj [])
      = .done (.obj [("a", .num 1)]) (some (.path "Object has no key missing")) :=
  (C14_compose_runs_in_order [Set plainTemplate "/a" (.num 1), none, Delete "/missing",
      Set plainTemplate "/b" (.num 2)] (.obj [])).2.2.1
    [Set plainTemplate "/a" (.num 1), none] [Set plainTemplate "/b" (.num 2)]
    (Delete "/missing") (.obj [("a", .num 1)]) (.obj [("a", .num 1)])
    (.path "Object has no key missing") rfl rfl rfl

/-! ### Predicates and strings -/

/-- C16: `GetAsString(p)` returns the string with no error when `Get(p)`
resolves to a string, the empty string with no error when `Get(p)` fails, and
fails, with a type error, exactly when `Get(p)` resolves to a value that is
not a string. -/
theorem C16_get_as_string (D : Doc) (p : String) :
    (∀ s, GetKey D p = .ok (.str s) → GetKeyAsString D p = .ok s) ∧
    (∀ e, GetKey D p = .error e → GetKeyAsString D p = .ok "") ∧
    ((∃ e, GetKeyAsString D p = .error e) ↔
      ∃ v, GetKey D p = .ok v ∧ ∀ s, v ≠ .str s) ∧
    (∀ e, GetKeyAsString D p = .error e → e.isType = true) := by
  unfold GetKeyAsString
  cases hg : GetKey D p with
  | error e0 => simp
  | ok v => cases v <;> simp [Err.isType]

theorem C16_get_as_string_witness :
    GetKeyAsString (.obj [("a", .str "foo"), ("n", .num 1)]) "/a" = .ok "foo" :=
  (C16_get_as_string (.obj [("a", .str "foo"), ("n", .num 1)]) "/a").1 "foo" rfl

/-- C20: when `Get(p)` fails, `ValRegex(p, re)` returns what `re` says of the
empty string, the string `GetKeyAsString` hands back for a failed lookup; when
`p` resolves to a value that is not a string it returns false. -/
theorem C20_val_regex_lenient (D : Doc) (p : String) (re : Pattern) :
    (∀ e, GetKey D p = .error e → ValRegex p re D = some (re.MatchString "")) ∧
    (∀ v, GetKey D p = .ok v → (∀ s, v ≠ .str s) → ValRegex p re D = some false) := by
  unfold ValRegex GetKeyAsString
  constructor
  · intro e h
    rw [h]
  · intro v h hv
    rw [h]
    cases v with
    | str s => exact absurd rfl (hv s)
    | null => rfl
    | bool b => rfl
    | num n => rfl
    | arr l => rfl
    | obj m => rfl

theorem C20_val_regex_lenient_witness :
    ValRegex "/missing" emptyPattern (.obj [("a", .num 1)]) = some true :=
  (C20_val_regex_lenient (.obj [("a", .num 1)]) "/missing" emptyPattern).1
    (.path "Object has no key missing") rfl

/-- C15 (the code at the failing input): on `{"key": null}` the lookup of
`/key` succeeds with nil and `ValEmpty("/key")` panics in `reflect.Zero`; on
`{"key": {}}` it is true, and on a missing key it is false. -/
theorem C15_val_empty_null_panics :
    GetKey (.obj [("key", .null)]) "/key" = .ok .null ∧
    ValEmpty "/key" (.obj [("key", .null)]) = none ∧
    ValEmpty "/key" (.obj [("key", .obj [])]) = some true ∧
    ValEmpty "/key" (.obj []) = some false :=
  ⟨rfl, rfl, rfl, rfl⟩

/-! ### Child keys -/

theorem splitAt_ne_nil (sep : Char) (cs : List Char) : splitAt sep cs ≠ [] := by
  cases cs with
  | nil => simp [splitAt]
  | cons c rest =>
    simp only [splitAt]
    split
    · simp
    · split <;> simp

theorem splitAt_append (sep : Char) (a b : List Char) :
    splitAt sep (a ++ sep :: b) = splitAt sep a ++ splitAt sep b := by
  induction a with
  | nil => simp [splitAt]
  | cons c rest ih =>
    by_cases hc : c = sep
    · simp [splitAt, hc, ih]
    · have e : (c :: rest) ++ sep :: b = c :: (rest ++ sep :: b) := rfl
      rw [e]
      simp only [splitAt, hc, if_false]
      rw [ih]
      cases hs : splitAt sep rest with
      | nil => exact absurd hs (splitAt_ne_nil sep rest)
      | cons t ts => simp

theorem splitAt_plain (sep : Char) (cs : List Char) (h : ∀ c ∈ cs, c ≠ sep) :
    splitAt sep cs = [cs] := by
  induction cs with
  | nil => simp [splitAt]
  | cons c rest ih =>
    have hc : c ≠ sep := h c (List.mem_cons_self _ _)
    have hr := ih (fun d hd => h d (List.mem_cons_of_mem _ hd))
    simp [splitAt, hc, hr]

theorem joinSlash_append_one (xs : List (List Char)) (k : List Char) (h : xs ≠ []) :
    joinSlash (xs ++ [k]) = joinSlash xs ++ '/' :: k := by
  induction xs with
  | nil => exact absurd rfl h
  | cons x rest ih =>
    cases rest with
    | nil => rfl
    | cons y ys =>
      have h1 : joinSlash (y :: ys ++ [k]) = joinSlash (y :: ys) ++ '/' :: k := ih (by simp)
      have e1 : x :: y :: ys ++ [k] = x :: (y :: ys ++ [k]) := rfl
      have e2 : y :: ys ++ [k] = y :: (ys ++ [k]) := rfl
      rw [e1]
      rw [e2] at h1 ⊢
      simp only [joinSlash]
      rw [h1]
      simp only [joinSlash, List.append_assoc, List.cons_append]

theorem plainSegment_iff (k : String) :
    plainSegment k = true ↔
      k.data ≠ [] ∧ (∀ c ∈ k.data, c ≠ '/') ∧ k.data ≠ ['.'] ∧ k.data ≠ ['.', '.'] := by
  simp [plainSegment]

theorem joinKey_clean (p k : String) (hp : cleanPath p = true) (hk : plainSegment k = true) :
    JoinKey [p, k] = p ++ "/" ++ k := by
  obtain ⟨hk1, hk2, hk3, hk4⟩ := (plainSegment_iff k).mp hk
  unfold cleanPath at hp
  cases hpd : p.data with
  | nil => rw [hpd] at hp; simp at hp
  | cons c0 rest0 =>
    rw [hpd] at hp
    cases rest0 with
    | nil => split at hp <;> simp_all
    | cons c1 rest1 =>
      have hc0 : c0 = '/' := by
        split at hp
        · next h => simp only [List.cons.injEq] at h; exact h.1
        · cases hp
      subst hc0
      simp only [decide_eq_true_eq] at hp
      have hbuf : joinBuf [] [p, k] = p.data ++ '/' :: k.data := by
        have hpne : p ≠ "" := by
          intro h
          rw [h] at hpd
          cases hpd
        simp [joinBuf, hpne, hpd]
      have hall : ([p, k].all fun e => decide (e.data = [])) = false := by
        simp [hpd]
      have hclean : pathClean (p.data ++ '/' :: k.data) = p.data ++ '/' :: k.data := by
        rw [hpd]
        simp only [pathClean, List.cons_append, decide_True, if_true] at hp ⊢
        have hsplit : splitAt '/' ('/' :: c1 :: (rest1 ++ '/' :: k.data))
            = splitAt '/' ('/' :: c1 :: rest1) ++ [k.data] := by
          have := splitAt_append '/' ('/' :: c1 :: rest1) k.data
          rw [splitAt_plain '/' k.data hk2] at this
          exact this
        rw [hsplit, List.foldl_append]
        simp only [List.foldl_cons, List.foldl_nil]
        have hstep : ∀ out, cleanStep true out k.data = k.data :: out := by
          intro out
          simp [cleanStep, hk1, hk3, hk4]
        rw [hstep, List.reverse_cons]
        have hne : (List.foldl (cleanStep true) [] (splitAt '/' ('/' :: c1 :: rest1))).reverse
            ≠ [] := by
          intro h
          rw [h] at hp
          simp [joinSlash] at hp
        rw [joinSlash_append_one _ _ hne]
        simp only [List.cons.injEq, true_and] at hp
        rw [hp]
        simp
      unfold JoinKey pathJoin
      rw [hall]
      simp only [Bool.false_eq_true, if_false, hbuf, hclean]
      apply String.ext
      simp

theorem jsonPtr_child (p k : String) (ts : List String) (hp : jsonPtr p = .ok ts)
    (hk : ∀ c ∈ k.data, c ≠ '/') : jsonPtr (p ++ "/" ++ k) = .ok (ts ++ [k]) := by
  unfold jsonPtr at hp ⊢
  have hd : (p ++ "/" ++ k).data = p.data ++ '/' :: k.data := by simp
  rw [hd]
  cases hpd : p.data with
  | nil =>
    rw [hpd] at hp
    simp only [Except.ok.injEq] at hp
    subst hp
    simp [splitAt_plain '/' k.data hk]
  | cons c rest =>
    rw [hpd] at hp
    simp only [List.cons_append]
    by_cases hc : c = '/'
    · simp only [hc, if_true, Except.ok.injEq] at hp ⊢
      rw [splitAt_append, splitAt_plain '/' k.data hk, ← hp]
      simp
    · simp [hc] at hp

theorem ptrGet_append (ts us : List String) :
    ∀ d : Doc, ptrGet (ts ++ us) d =
      match ptrGet ts d with
      | .ok d1 => ptrGet us d1
      | .error e => .error e := by
  induction ts with
  | nil => intro d; simp [ptrGet]
  | cons t rest ih =>
    intro d
    cases d with
    | obj m =>
      simp only [List.cons_append, ptrGet]
      cases Fields.find (decodeReferenceToken t) m with
      | none => rfl
      | some child => exact ih child
    | arr l =>
      simp only [List.cons_append, ptrGet]
      cases arrayIndex t l.length with
      | error e => rfl
      | ok i => exact ih _
    | null => rfl
    | bool b => rfl
    | num n => rfl
    | str s => rfl

theorem digitChar_isDigit (n : Nat) (h : n < 10) : (Nat.digitChar n).isDigit = true := by
  interval_cases n <;> rfl

theorem toDigitsCore_digits (fuel : Nat) :
    ∀ (n : Nat) (ds : List Char), (∀ c ∈ ds, c.isDigit = true) →
      ∀ c ∈ Nat.toDigitsCore 10 fuel n ds, c.isDigit = true := by
  induction fuel with
  | zero => intro n ds h; simpa [Nat.toDigitsCore] using h
  | succ f ih =>
    intro n ds h
    have hd : (Nat.digitChar (n % 10)).isDigit = true :=
      digitChar_isDigit _ (Nat.mod_lt _ (by decide))
    have hds : ∀ c ∈ Nat.digitChar (n % 10) :: ds, c.isDigit = true := by
      intro c hc
      rcases List.mem_cons.mp hc with h1 | h1
      · rw [h1]; exact hd
      · exact h c h1
    simp only [Nat.toDigitsCore]
    split
    · exact hds
    · exact ih _ _ hds

theorem toDigitsCore_ne_nil (fuel n : Nat) (ds : List Char) (h : ds ≠ [] ∨ 0 < fuel) :
    Nat.toDigitsCore 10 fuel n ds ≠ [] := by
  induction fuel generalizing n ds with
  | zero =>
    rcases h with h | h
    · simpa [Nat.toDigitsCore] using h
    · cases h
  | succ f ih =>
    simp only [Nat.toDigitsCore]
    split
    · simp
    · exact ih _ _ (Or.inl (by simp))

theorem plainSegment_repr (i : Nat) : plainSegment (Nat.repr i) = true := by
  rw [plainSegment_iff]
  have hdig : ∀ c ∈ (Nat.repr i).data, c.isDigit = true := by
    intro c hc
    exact toDigitsCore_digits (i + 1) i [] (by simp) c
      (by simpa [Nat.repr, Nat.toDigits, List.asString] using hc)
  have hne : (Nat.repr i).data ≠ [] := by
    simpa [Nat.repr, Nat.toDigits, List.asString] using
      toDigitsCore_ne_nil (i + 1) i [] (Or.inr (Nat.succ_pos _))
  refine ⟨hne, ?_, ?_, ?_⟩
  · intro c hc h
    have := hdig c hc
    rw [h] at this
    exact absurd this (by decide)
  · intro h
    have := hdig '.' (by rw [h]; simp)
    exact absurd this (by decide)
  · intro h
    have := hdig '.' (by rw [h]; simp)
    exact absurd this (by decide)

theorem indexKeys_clean (p : String) (n : Nat) (hp : cleanPath p = true) :
    indexKeys p n = (List.range n).map (fun i => p ++ "/" ++ Nat.repr i) := by
  unfold indexKeys
  apply List.map_congr_left
  intro i _
  exact joinKey_clean p (Nat.repr i) hp (plainSegment_repr i)

/-! ### Walk on scalars and sequences -/

/-- C11 (amended): when `p` resolves to a string, a number or a boolean,
`Walk(p, f)` fails with a walk error, makes no call to `f` and leaves the
document as it is; when `p` resolves to null it makes no call to `f` either
and returns nil. -/
theorem C11_walk_scalar_or_null (D : Doc) (p : String) (f : KeyUpdater) (v : Doc)
    (hp : GetKey D p = .ok v) :
    (isScalar v = true →
      ∃ e, WalkKeyCalls D p f = ([], .done D (some e)) ∧ e.isWalk = true) ∧
    (v = .null → WalkKeyCalls D p f = ([], .done D none)) := by
  constructor
  · intro hs
    cases v with
    | str s => exact ⟨.walk ("Cannot walk key " ++ p), by simp only [WalkKeyCalls, hp], rfl⟩
    | num n => exact ⟨.walk ("Cannot walk key " ++ p), by simp only [WalkKeyCalls, hp], rfl⟩
    | bool b => exact ⟨.walk ("Cannot walk key " ++ p), by simp only [WalkKeyCalls, hp], rfl⟩
    | null => cases hs
    | arr l => cases hs
    | obj m => cases hs
  · intro hv
    subst hv
    simp only [WalkKeyCalls, hp]

theorem C11_walk_scalar_or_null_witness :
    ∃ e, WalkKeyCalls (.obj [("a", .str "x")]) "/a" zeroChild
        = ([], .done (.obj [("a", .str "x")]) (some e)) ∧ e.isWalk = true :=
  (C11_walk_scalar_or_null (.obj [("a", .str "x")]) "/a" zeroChild (.str "x") rfl).1 rfl

/-- C11 (counterexample): `/a` resolves to null in `{"a": null}`, and
`Walk("/a", f)` returns nil, not a walk error. -/
theorem C11_walk_null_counterexample :
    GetKey (.obj [("a", .null)]) "/a" = .ok .null ∧
    WalkKey (.obj [("a", .null)]) "/a" zeroChild = .done (.obj [("a", .null)]) none :=
  ⟨rfl, rfl⟩

theorem walkSeq_all (fn : String → Updater) (p : String) :
    ∀ (is : List Nat) (d : Doc),
      (∀ c ∈ (walkSeq (some fn) p is d).1,
          ∃ d1, Updater.Do (fn c.1) c.2 = .done d1 none) →
      (walkSeq (some fn) p is d).1.map Prod.fst
          = is.map (fun i => JoinKey [p, Nat.repr i]) ∧
      List.Chain' (fun c c1 => Updater.Do (fn c.1) c.2 = .done c1.2 none)
          (walkSeq (some fn) p is d).1 ∧
      (∀ c, (walkSeq (some fn) p is d).1.head? = some c → c.2 = d) ∧
      (walkSeq (some fn) p is d).2 =
        (match (walkSeq (some fn) p is d).1.getLast? with
         | none => .done d none
         | some c => Updater.Do (fn c.1) c.2) ∧
      ∃ d1, (walkSeq (some fn) p is d).2 = .done d1 none := by
  intro is
  induction is with
  | nil =>
    intro d _
    simp [walkSeq]
  | cons i rest ih =>
    intro d hall
    cases hdo : Updater.Do (fn (JoinKey [p, Nat.repr i])) d with
    | panic =>
      have hw : (walkSeq (some fn) p (i :: rest) d).1 = [(JoinKey [p, Nat.repr i], d)] := by
        simp [walkSeq, hdo]
      obtain ⟨d1, g1⟩ := hall (JoinKey [p, Nat.repr i], d) (by rw [hw]; simp)
      rw [hdo] at g1
      cases g1
    | done d1 e1 =>
      cases e1 with
      | some err =>
        have hw : (walkSeq (some fn) p (i :: rest) d).1 = [(JoinKey [p, Nat.repr i], d)] := by
          simp [walkSeq, hdo]
        obtain ⟨d2, g1⟩ := hall (JoinKey [p, Nat.repr i], d) (by rw [hw]; simp)
        rw [hdo] at g1
        cases g1
      | none =>
        have hw : walkSeq (some fn) p (i :: rest) d =
            ((JoinKey [p, Nat.repr i], d) :: (walkSeq (some fn) p rest d1).1,
              (walkSeq (some fn) p rest d1).2) := by
          simp [walkSeq, hdo]
        rw [hw] at hall ⊢
        obtain ⟨i1, i2, i3, i4, i5⟩ :=
          ih d1 (fun c hc => hall c (List.mem_cons_of_mem _ hc))
        refine ⟨?_, ?_, ?_, ?_, i5⟩
        · simp only [List.map_cons, i1]
        · cases hr : (walkSeq (some fn) p rest d1).1 with
          | nil => exact List.chain'_singleton _
          | cons c cs =>
            rw [hr] at i2 i3
            refine List.Chain'.cons ?_ i2
            rw [i3 c rfl]
            exact hdo
        · intro c hc
          simp only [List.head?_cons, Option.some.injEq] at hc
          rw [← hc]
        · cases hr : (walkSeq (some fn) p rest d1).1 with
          | nil =>
            rw [hr] at i4
            simp only [List.getLast?_nil] at i4
            simp only [i4, List.getLast?_singleton, hdo]
          | cons c cs =>
            rw [hr] at i4
            simp only [List.getLast?_cons_cons]
            exact i4

/-- What `Walk(p, f)` does on a path that resolves to a sequence of length
n, `f` not nil and every call succeeding: `f` is called exactly n times, on
the child keys `JoinKey(p, "0")`, ..., `JoinKey(p, "n-1")` in this order,
which are `p/0`, ..., `p/(n-1)` when `p` is a pointer below the root in clean
form; the first updater runs on the document as it was, each later one on the
document the one before it left, and `Walk` returns nil with the document the
last one left. -/
theorem walk_sequence_calls (D : Doc) (p : String) (s : List Doc) (fn : String → Updater)
    (hp : GetKey D p = .ok (.arr s))
    (hall : ∀ c ∈ (WalkKeyCalls D p (some fn)).1,
      ∃ d1, Updater.Do (fn c.1) c.2 = .done d1 none) :
    (WalkKeyCalls D p (some fn)).1.map Prod.fst = indexKeys p s.length ∧
    (WalkKeyCalls D p (some fn)).1.length = s.length ∧
    List.Chain' (fun c c1 => Updater.Do (fn c.1) c.2 = .done c1.2 none)
      (WalkKeyCalls D p (some fn)).1 ∧
    (∀ c, (WalkKeyCalls D p (some fn)).1.head? = some c → c.2 = D) ∧
    WalkKey D p (some fn) =
      (match (WalkKeyCalls D p (some fn)).1.getLast? with
       | none => .done D none
       | some c => Updater.Do (fn c.1) c.2) ∧
    (∃ d1, WalkKey D p (some fn) = .done d1 none) ∧
    (cleanPath p = true →
      (WalkKeyCalls D p (some fn)).1.map Prod.fst
        = (List.range s.length).map (fun i => p ++ "/" ++ Nat.repr i)) := by
  have hw : WalkKeyCalls D p (some fn) = walkSeq (some fn) p (List.range s.length) D := by
    simp only [WalkKeyCalls, hp]
  simp only [WalkKey]
  rw [hw] at hall ⊢
  obtain ⟨h1, h2, h3, h4, h5⟩ := walkSeq_all fn p (List.range s.length) D hall
  refine ⟨h1, ?_, h2, h3, h4, h5, ?_⟩
  · have hlen := congrArg List.length h1
    simpa using hlen
  · intro hc
    rw [h1]
    exact indexKeys_clean p s.length hc

theorem walk_sequence_calls_on_test :
    (WalkKeyCalls arrayData "/array1" (some renameItem)).1.map Prod.fst
        = ["/array1/0", "/array1/1"] ∧
    WalkKey arrayData "/array1" (some renameItem)
        = .done (.obj [("array1",
            .arr [.obj [("key1", .str "val1")], .obj [("key1", .str "val2")]])]) none :=
  ⟨(walk_sequence_calls arrayData "/array1"
      [.obj [("key2", .str "value1")], .obj [("key2", .str "value2")]] renameItem rfl
      (by
        intro c hc
        have hcalls : (WalkKeyCalls arrayData "/array1" (some renameItem)).1 =
            [("/array1/0", arrayData),
             ("/array1/1", .obj [("array1",
                .arr [.obj [("key1", .str "val1")], .obj [("key2", .str "value2")]])])] := rfl
        rw [hcalls] at hc
        simp only [List.mem_cons, List.mem_singleton, List.not_mem_nil, or_false] at hc
        rcases hc with rfl | rfl
        · exact ⟨_, rfl⟩
        · exact ⟨_, rfl⟩)).1, rfl⟩

/-! ### Chains that reject the document -/

theorem conform_rejected (J : Codec) :
    ∀ (c : Conformer) (D : Doc), rejectedByAll J c D = true →
      ∃ e, c.validate J D = some e ∧ c.Conform J D = .done D (some e)
  | .mk s u none, D, h => by
    simp only [rejectedByAll, Bool.and_true, Option.isSome_iff_exists] at h
    obtain ⟨e, he⟩ := h
    have hv : (Conformer.mk s u none).validate J D = some e := by
      rw [validate_eq_check]
      exact he
    exact ⟨e, hv, by rw [conform_eq, hv]⟩
  | .mk s u (some n), D, h => by
    simp only [rejectedByAll, Bool.and_eq_true, Option.isSome_iff_exists] at h
    obtain ⟨⟨e, he⟩, hn⟩ := h
    have hv : (Conformer.mk s u (some n)).validate J D = some e := by
      rw [validate_eq_check]
      exact he
    obtain ⟨e1, _, hc⟩ := conform_rejected J n D hn
    refine ⟨e, hv, ?_⟩
    rw [conform_eq, hv]
    simp only
    rw [hc]

/-- C18: when the schema of every node of the chain rejects the document,
`Conform` on the head returns the head's validation error and leaves the
document as it was.  Only the schemas are constrained: the result is the
same whatever the updaters of the chain are, so none of them is run. -/
theorem C18_conform_all_reject (J : Codec) (c : Conformer) (D : Doc)
    (h : rejectedByAll J c D = true) :
    ∃ e, c.validate J D = some e ∧ c.Conform J D = .done D (some e) :=
  conform_rejected J c D h

theorem C18_conform_all_reject_witness :
    ∃ e, moveChain.validate treeCodec (.obj [("other", .str "x")]) = some e ∧
      moveChain.Conform treeCodec (.obj [("other", .str "x")])
        = .done (.obj [("other", .str "x")]) (some e) :=
  C18_conform_all_reject treeCodec moveChain (.obj [("other", .str "x")]) rfl

/-! ### Set and templates -/

theorem render_concatAB (D : Doc) (sa sb : String)
    (ha : GetKey D "/a" = .ok (.str sa)) (hb : GetKey D "/b" = .ok (.str sb)) :
    renderTemplate goTemplate D concatAB = .ok (sa ++ sb) := by
  have hrw : goTemplate.Rewrite concatAB
      = "\x7b\x7b<<key \"/a\">>\x7d\x7d\x7b\x7b<<key \"/b\">>\x7d\x7d" := rfl
  have hne : ¬ ("\x7b\x7b<<key \"/a\">>\x7d\x7d\x7b\x7b<<key \"/b\">>\x7d\x7d" = concatAB) := by
    decide
  have hparse : parsePieces 0
      ("\x7b\x7b<<key \"/a\">>\x7d\x7d\x7b\x7b<<key \"/b\">>\x7d\x7d").data []
      = .ok [.key "/a", .key "/b"] := rfl
  have hex : ∀ (key : String → Except Err Doc) (s : String), goTemplate.Execute key s =
      (match parsePieces 0 s.data [] with
       | Except.error err => Except.error err
       | Except.ok ps =>
         match execPieces key ps with
         | Except.error err => Except.error err
         | Except.ok out => Except.ok (String.mk out)) := fun _ _ => rfl
  unfold renderTemplate
  simp only [hrw, hne, if_false, hex, hparse, execPieces, ha, hb, stringForm, printDoc,
    List.append_nil]
  rfl

theorem ptrSet_single (k : String) (v : Doc) (m : Fields) :
    ptrSet [k] v (.obj m) = (.obj (Fields.put (decodeReferenceToken k) v m), none) := by
  simp only [ptrSet]
  cases Fields.find (decodeReferenceToken k) m <;> rfl

/-- C13: in a mapping document where `/a` and `/b` resolve to the strings
`sa` and `sb`, `Set("/x", "{{key \"/a\"}}{{key \"/b\"}}")` succeeds and leaves
the document with `x` holding `sa ++ sb`, read from the document as it was
before the write, and every other entry as it was. -/
theorem C13_set_concatenates (m : Fields) (sa sb : String)
    (ha : GetKey (.obj m) "/a" = .ok (.str sa))
    (hb : GetKey (.obj m) "/b" = .ok (.str sb)) :
    SetKey goTemplate (.obj m) "/x" (.str concatAB)
      = (.obj (Fields.put "x" (.str (sa ++ sb)) m), none) ∧
    Fields.find "x" (Fields.put "x" (.str (sa ++ sb)) m) = some (.str (sa ++ sb)) ∧
    ∀ k, k ≠ "x" →
      Fields.find k (Fields.put "x" (.str (sa ++ sb)) m) = Fields.find k m := by
  refine ⟨?_, find_put_same _ _ _, fun k hk => find_put_other _ _ _ _ (fun h => hk h.symm)⟩
  have hp : jsonPtr "/x" = .ok ["x"] := rfl
  simp only [SetKey, hp, render_concatAB (.obj m) sa sb ha hb]
  exact ptrSet_single "x" _ m

theorem C13_set_concatenates_witness :
    SetKey goTemplate (.obj [("a", .str "foo"), ("b", .str "bar")]) "/x" (.str concatAB)
      = (.obj [("a", .str "foo"), ("b", .str "bar"), ("x", .str "foobar")], none) :=
  (C13_set_concatenates [("a", .str "foo"), ("b", .str "bar")] "foo" "bar" rfl rfl).1

/-- C17 (amended): for a mapping document, a key `k` that is its own
reference token (one segment, left as it is by the decoding of `~0` and `~1`)
and a value `v` that rendering leaves as it is (null included), `Set("/k", v)`
succeeds whether or not `k` is present; afterwards `k` holds exactly `v` and
every other entry is as it was. -/
theorem C17_set_single_key (T : Template) (m : Fields) (k : String) (v : Doc)
    (hk : ownToken k = true) (hv : plainValue T v = true) :
    SetKey T (.obj m) ("/" ++ k) v = (.obj (Fields.put k v m), none) ∧
    Fields.find k (Fields.put k v m) = some v ∧
    ∀ k1, k1 ≠ k → Fields.find k1 (Fields.put k v m) = Fields.find k1 m := by
  refine ⟨?_, find_put_same _ _ _, fun k1 h1 => find_put_other _ _ _ _ (fun h => h1 h.symm)⟩
  simp only [ownToken, Bool.decide_and, Bool.and_eq_true, List.all_eq_true,
    decide_eq_true_eq] at hk
  obtain ⟨hk1, hk2⟩ := hk
  have hp : jsonPtr ("/" ++ k) = .ok [k] := by
    have h := jsonPtr_child "" k [] rfl hk1
    have e : ("" : String) ++ "/" = "/" := rfl
    rw [e] at h
    exact h
  rw [setKey_eq T (.obj m) ("/" ++ k) v [k] hp, rendered_plain T (.obj m) v hv]
  simp only
  rw [ptrSet_single, hk2]

theorem C17_set_single_key_witness :
    SetKey goTemplate (.obj [("key", .str "old")]) "/key" (.str "value")
        = (.obj [("key", .str "value")], none) ∧
    SetKey goTemplate (.obj []) "/key" (.str "value")
        = (.obj [("key", .str "value")], none) ∧
    SetKey goTemplate (.obj []) "/key" .null = (.obj [("key", .null)], none) :=
  ⟨(C17_set_single_key goTemplate [("key", .str "old")] "key" (.str "value") rfl rfl).1,
   (C17_set_single_key goTemplate [] "key" (.str "value") rfl rfl).1,
   (C17_set_single_key goTemplate [] "key" .null rfl rfl).1⟩

/-- C17 (counterexample): the key `~1` is one segment, and `Set("/~1", 1)`
on the empty mapping succeeds, but the pointer decodes the segment: the entry
written is `/`, and `~1` is not a key of the mapping afterwards. -/
theorem C17_escaped_key_counterexample :
    SetKey goTemplate (.obj []) ("/" ++ "~1") (.num 1) = (.obj [("/", .num 1)], none) ∧
    Fields.find "~1" [("/", .num 1)] = none :=
  ⟨rfl, rfl⟩

/-- Where the child key does resolve: when `p` is a pointer below the root in
clean form that resolves to a mapping, and `k` is a key of the mapping that is
one plain segment and its own reference token (not empty, not `.` or `..`,
without `/` and without escape), the child key `JoinKey(p, k)` that `Walk`
hands to the KeyUpdater is `p/k` and resolves under `Get` to the value of the
entry. -/
theorem child_key_resolves (D : Doc) (p : String) (m : Fields) (k : String) (v : Doc)
    (hp : GetKey D p = .ok (.obj m))
    (hclean : cleanPath p = true)
    (hk : plainSegment k = true)
    (hown : ownToken k = true)
    (hv : Fields.find k m = some v) :
    JoinKey [p, k] = p ++ "/" ++ k ∧ GetKey D (JoinKey [p, k]) = .ok v := by
  have hj := joinKey_clean p k hclean hk
  refine ⟨hj, ?_⟩
  rw [hj]
  simp only [ownToken, Bool.decide_and, Bool.and_eq_true, List.all_eq_true,
    decide_eq_true_eq] at hown
  obtain ⟨hk1, hk2⟩ := hown
  unfold GetKey at hp ⊢
  cases hts : jsonPtr p with
  | error e => rw [hts] at hp; cases hp
  | ok ts =>
    rw [hts] at hp
    simp only at hp
    rw [jsonPtr_child p k ts hts hk1]
    simp only
    rw [ptrGet_append, hp]
    simp only [ptrGet, hk2, hv]

theorem child_key_resolves_example :
    JoinKey ["/m", "a"] = "/m/a" ∧
    GetKey (.obj [("m", .obj [("a", .num 1), ("b", .num 2)])]) (JoinKey ["/m", "a"])
      = .ok (.num 1) :=
  child_key_resolves (.obj [("m", .obj [("a", .num 1), ("b", .num 2)])]) "/m"
    [("a", .num 1), ("b", .num 2)] "a" (.num 1) rfl rfl rfl rfl rfl

/-- C19 (the code at the failing input): in `{"m": {"a/b": 1}}` the mapping
at `/m` has the key `a/b`; the child key `Walk("/m", f)` builds for it,
`JoinKey("/m", "a/b")`, is `/m/a/b`, and `Get` fails on it.  At the root the
child key of `a` is `JoinKey("", "a")`, which is `a` and not a pointer. -/
theorem C19_child_key_of_slash_key :
    GetKey (.obj [("m", .obj [("a/b", .num 1)])]) "/m" = .ok (.obj [("a/b", .num 1)]) ∧
    Fields.find "a/b" [("a/b", .num 1)] = some (.num 1) ∧
    JoinKey ["/m", "a/b"] = "/m/a/b" ∧
    GetKey (.obj [("m", .obj [("a/b", .num 1)])]) (JoinKey ["/m", "a/b"])
      = .error (.path "Object has no key a") ∧
    JoinKey ["", "a"] = "a" ∧
    GetKey (.obj [("a", .num 1)]) (JoinKey ["", "a"])
      = .error (.path "JSON pointer must be empty or start with a /") :=
  ⟨rfl, rfl, rfl, rfl, rfl, rfl⟩

/-- C12 (the code at the failing input): the empty path resolves to the
sequence `[1]` at the root; `Walk("", f)` calls `f` once, on the child key
`JoinKey("", "0")`, which is `0` and not `/0`, and which `GetKey` rejects as
not a pointer.  With a nil KeyUpdater the call `f(...)` panics. -/
theorem C12_walk_root_sequence :
    GetKey (.arr [.num 1]) "" = .ok (.arr [.num 1]) ∧
    WalkKeyCalls (.arr [.num 1]) "" (some noEdit)
      = ([("0", .arr [.num 1])], .done (.arr [.num 1]) none) ∧
    ("0" : String) ≠ "" ++ "/" ++ Nat.repr 0 ∧
    GetKey (.arr [.num 1]) "0"
      = .error (.path "JSON pointer must be empty or start with a /") ∧
    WalkKey (.arr [.num 1]) "" none = .panic :=
  ⟨rfl, rfl, by decide, rfl, rfl⟩

end Conform
